import Mathlib

/-!
Verification model of `src/facility-checkin-pwa/assets/auth.ts`, the mock
authentication module of the repository (token codec, login, token
verification, local-session lookup, logout, random delay).

The embedding is executable and follows the TypeScript source closely:

* JS strings are modelled as Lean `String` (sequences of Unicode scalar
  values; lone UTF-16 surrogates are not representable and are outside the
  model).
* `btoa`/`atob` are the WHATWG primitives the code calls: `btoa` fails on
  any character above U+00FF, `atob` implements forgiving-base64 decode.
* `JSON.stringify`/`JSON.parse` are modelled for the JSON fragment the
  module manipulates; JSON numbers are modelled as integers (the code only
  ever serializes the integer timestamp `Date.now() + 3600000`; the model
  parser rejects fraction/exponent forms instead of reading a float).
* Thrown exceptions are modelled with `Option`/`Except`; the JS
  distinction between `null` and `undefined` is kept explicitly because
  `getCurrentUser`/`isAuthenticated` observe it.
* `localStorage` is modelled as an ambient `StorageState` (availability
  flag plus the value stored under the `auth_token` key).
* The float arithmetic of `randomDelay` is modelled exactly over `ℚ`.
-/

/-! ## Character helpers -/

/-- JSON insignificant whitespace characters (space, tab, line feed,
carriage return), as accepted by `JSON.parse`. -/
def isJsonWs (c : Char) : Bool :=
  c = ' ' || c = Char.ofNat 9 || c = Char.ofNat 10 || c = Char.ofNat 13

/-- Drop leading JSON whitespace. -/
def skipWs : List Char → List Char
  | [] => []
  | c :: rest => if isJsonWs c then skipWs rest else c :: rest

/-- ASCII decimal digit test (the digits accepted in JSON numbers). -/
def isDigitChar (c : Char) : Bool :=
  48 ≤ c.toNat && c.toNat ≤ 57

/-- The ASCII digit character for `n < 10`. -/
def digitChar (n : Nat) : Char := Char.ofNat (48 + n)

/-- Lowercase hexadecimal digit character for `n < 16`, as produced by
the `\u00xx` escapes of `JSON.stringify`. -/
def hexDigitChar (n : Nat) : Char :=
  Char.ofNat (if n < 10 then 48 + n else 87 + n)

/-- Value of a hexadecimal digit character (upper or lower case), as
accepted after `\u` by `JSON.parse`. -/
def hexVal (c : Char) : Option Nat :=
  if 48 ≤ c.toNat ∧ c.toNat ≤ 57 then some (c.toNat - 48)
  else if 97 ≤ c.toNat ∧ c.toNat ≤ 102 then some (c.toNat - 87)
  else if 65 ≤ c.toNat ∧ c.toNat ≤ 70 then some (c.toNat - 55)
  else none

/-! ## Base64 (WHATWG `btoa` / `atob`) -/

/-- The base64 alphabet. -/
def b64alphabet : List Char :=
  "ABCDEFGHIJKLMNOPQRSTUVWXYZabcdefghijklmnopqrstuvwxyz0123456789+/".toList

/-- Character at index `n` of the base64 alphabet. -/
def b64char (n : Nat) : Char := b64alphabet.getD n 'A'

/-- Position of a character in a list, used to invert the alphabet. -/
def indexOfChar : List Char → Char → Option Nat
  | [], _ => none
  | d :: rest, c =>
    if d = c then some 0
    else match indexOfChar rest c with
      | some i => some (i + 1)
      | none => none

/-- Index of a character in the base64 alphabet (`none` for characters
outside it, including `=`). -/
def b64index (c : Char) : Option Nat := indexOfChar b64alphabet c

/-- Encode a byte list into base64 characters, three bytes at a time,
padding the final chunk with `=` as `btoa` does. -/
def encodeChunks : List Nat → List Char
  | [] => []
  | [a] => [b64char (a / 4), b64char (a % 4 * 16), '=', '=']
  | [a, b] => [b64char (a / 4), b64char (a % 4 * 16 + b / 16), b64char (b % 16 * 4), '=']
  | a :: b :: c :: rest =>
    b64char (a / 4) :: b64char (a % 4 * 16 + b / 16) ::
      b64char (b % 16 * 4 + c / 64) :: b64char (c % 64) :: encodeChunks rest

/-- Decode base64 characters into bytes, four characters at a time.
This is the chunked form of WHATWG forgiving-base64: `=` padding is only
accepted at the very end, a trailing chunk of one character is invalid,
and leftover bits of a partial final chunk are discarded. -/
def decodeChunks : List Char → Option (List Nat)
  | [] => some []
  | [_] => none
  | [w, x] =>
    match b64index w, b64index x with
    | some a, some b => some [a * 4 + b / 16]
    | _, _ => none
  | [w, x, y] =>
    match b64index w, b64index x, b64index y with
    | some a, some b, some c => some [a * 4 + b / 16, b % 16 * 16 + c / 4]
    | _, _, _ => none
  | w :: x :: y :: z :: rest =>
    if z = '=' then
      if rest = [] then
        if y = '=' then
          match b64index w, b64index x with
          | some a, some b => some [a * 4 + b / 16]
          | _, _ => none
        else
          match b64index w, b64index x, b64index y with
          | some a, some b, some c => some [a * 4 + b / 16, b % 16 * 16 + c / 4]
          | _, _, _ => none
      else none
    else
      match b64index w, b64index x, b64index y, b64index z with
      | some a, some b, some c, some d =>
        match decodeChunks rest with
        | some bs => some ((a * 4 + b / 16) :: (b % 16 * 16 + c / 4) :: (c % 4 * 64 + d) :: bs)
        | none => none
      | _, _, _, _ => none

/-- ASCII whitespace removed by forgiving-base64 before decoding. -/
def isB64Ws (c : Char) : Bool :=
  c = ' ' || c = Char.ofNat 9 || c = Char.ofNat 10 || c = Char.ofNat 12 || c = Char.ofNat 13

/-- WHATWG `btoa`: fails (throws `InvalidCharacterError`, modelled as
`none`) when the string has a character above U+00FF, otherwise encodes
the bytes in base64. -/
def btoa (s : String) : Option String :=
  if s.toList.all (fun c => c.toNat < 256) then
    some (String.mk (encodeChunks (s.toList.map Char.toNat)))
  else none

/-- WHATWG `atob`: strips ASCII whitespace, then forgiving-base64
decodes; the resulting bytes are returned as a Latin-1 string. -/
def atob (s : String) : Option String :=
  match decodeChunks (s.toList.filter (fun c => !isB64Ws c)) with
  | some bs => some (String.mk (bs.map Char.ofNat))
  | none => none

/-! ## `String.prototype.split` with separator `'.'` -/

/-- JS `s.split('.')` on the character list: splits at every dot; the
empty string yields `[""]`. -/
def splitDotChars : List Char → List (List Char)
  | [] => [[]]
  | c :: rest =>
    if c = '.' then [] :: splitDotChars rest
    else match splitDotChars rest with
      | [] => [[c]]
      | s :: ss => (c :: s) :: ss

/-- JS `token.split('.')`. -/
def splitDot (s : String) : List String :=
  (splitDotChars s.toList).map String.mk

/-! ## JSON values -/

/-- JSON values as manipulated by the module. Numbers are modelled as
integers: the only number the code ever serializes is the integer
timestamp `Date.now() + 3600000`, and the model parser rejects
fraction/exponent literals rather than approximating floats. -/
inductive Json where
  | jnull
  | jbool (b : Bool)
  | jnum (n : Int)
  | jstr (s : String)
  | jarr (elems : List Json)
  | jobj (fields : List (String × Json))

/-! ## `JSON.stringify` -/

/-- Escape of a single character inside a JSON string literal, exactly as
`JSON.stringify` produces it: `"` and `\` are backslash-escaped, the
named control escapes are used for backspace, form feed, newline,
carriage return and tab, all other control characters get a lowercase
`\u00xx` escape, and every other character is emitted literally. -/
def escapeChar (c : Char) : List Char :=
  if c = '"' then ['\\', '"']
  else if c = '\\' then ['\\', '\\']
  else if c = Char.ofNat 8 then ['\\', 'b']
  else if c = Char.ofNat 12 then ['\\', 'f']
  else if c = Char.ofNat 10 then ['\\', 'n']
  else if c = Char.ofNat 13 then ['\\', 'r']
  else if c = Char.ofNat 9 then ['\\', 't']
  else if c.toNat < 32 then
    ['\\', 'u', '0', '0', hexDigitChar (c.toNat / 16), hexDigitChar (c.toNat % 16)]
  else [c]

/-- Escape a whole character sequence. -/
def escList : List Char → List Char
  | [] => []
  | c :: rest => escapeChar c ++ escList rest

/-- Decimal digits of a natural number, most significant first; `fuel`
bounds the recursion (`n < fuel` suffices). -/
def natToCharsAux : Nat → Nat → List Char
  | 0, _ => []
  | fuel + 1, n =>
    if n < 10 then [digitChar n]
    else natToCharsAux fuel (n / 10) ++ [digitChar (n % 10)]

/-- Decimal representation of a natural number. -/
def natToChars (n : Nat) : List Char := natToCharsAux (n + 1) n

/-- Decimal representation of an integer, as `JSON.stringify` prints an
integral number. -/
def intToChars (n : Int) : List Char :=
  if n < 0 then '-' :: natToChars n.natAbs else natToChars n.toNat

mutual

/-- Characters of `JSON.stringify` applied to a JSON value (object keys
in insertion order, no added whitespace). -/
def jsonToChars : Json → List Char
  | .jnull => ['n', 'u', 'l', 'l']
  | .jbool true => ['t', 'r', 'u', 'e']
  | .jbool false => ['f', 'a', 'l', 's', 'e']
  | .jnum n => intToChars n
  | .jstr s => '"' :: (escList s.toList ++ ['"'])
  | .jarr es => '[' :: (elemsToChars es ++ [']'])
  | .jobj fs => '{' :: (membersToChars fs ++ ['}'])

/-- Characters of a comma-separated array element list. -/
def elemsToChars : List Json → List Char
  | [] => []
  | [j] => jsonToChars j
  | j :: rest => jsonToChars j ++ ',' :: elemsToChars rest

/-- Characters of a comma-separated object member list. -/
def membersToChars : List (String × Json) → List Char
  | [] => []
  | [(k, v)] => '"' :: (escList k.toList ++ '"' :: ':' :: jsonToChars v)
  | (k, v) :: rest =>
    '"' :: (escList k.toList ++ '"' :: ':' :: (jsonToChars v ++ ',' :: membersToChars rest))

end

/-- `JSON.stringify` as a string-valued function. -/
def jsonToString (j : Json) : String := String.mk (jsonToChars j)

/-! ## `JSON.parse` -/

/-- Combine the four hex digits of a `\u` escape. -/
def hex4 (h1 h2 h3 h4 : Char) : Option Nat :=
  match hexVal h1, hexVal h2, hexVal h3, hexVal h4 with
  | some a, some b, some c, some d => some (((a * 16 + b) * 16 + c) * 16 + d)
  | _, _, _, _ => none

/-- Parse one item of a JSON string literal body: `some (none, rest)`
when the closing quote is consumed, `some (some ch, rest)` when one
(possibly escaped) character is consumed, `none` on a syntax error.
Raw control characters are rejected, the escape forms of `JSON.parse`
are accepted, and `\uXXXX` escapes are combined into surrogate pairs
where applicable (a lone surrogate is not representable as a Lean
character and is rejected by the model). -/
def parseStringItem : List Char → Option (Option Char × List Char)
  | [] => none
  | c :: rest =>
    if c = '"' then some (none, rest)
    else if c = '\\' then
      match rest with
      | [] => none
      | e :: rest2 =>
        if e = '"' then some (some '"', rest2)
        else if e = '\\' then some (some '\\', rest2)
        else if e = '/' then some (some '/', rest2)
        else if e = 'b' then some (some (Char.ofNat 8), rest2)
        else if e = 'f' then some (some (Char.ofNat 12), rest2)
        else if e = 'n' then some (some (Char.ofNat 10), rest2)
        else if e = 'r' then some (some (Char.ofNat 13), rest2)
        else if e = 't' then some (some (Char.ofNat 9), rest2)
        else if e = 'u' then
          match rest2 with
          | h1 :: h2 :: h3 :: h4 :: rest3 =>
            match hex4 h1 h2 h3 h4 with
            | none => none
            | some n =>
              if n < 55296 then some (some (Char.ofNat n), rest3)
              else if n ≤ 56319 then
                match rest3 with
                | q1 :: q2 :: g1 :: g2 :: g3 :: g4 :: rest4 =>
                  if q1 = '\\' ∧ q2 = 'u' then
                    match hex4 g1 g2 g3 g4 with
                    | none => none
                    | some m =>
                      if 56320 ≤ m ∧ m ≤ 57343 then
                        some (some (Char.ofNat (65536 + (n - 55296) * 1024 + (m - 56320))), rest4)
                      else none
                  else none
                | _ => none
              else if n ≤ 57343 then none
              else some (some (Char.ofNat n), rest3)
          | _ => none
        else none
    else if c.toNat < 32 then none
    else some (some c, rest)

/-- Prepend a decoded character to a string-body result. -/
def consStrChar (ch : Char) : Option (List Char × List Char) → Option (List Char × List Char)
  | some (s, r) => some (ch :: s, r)
  | none => none

/-- Scan a JSON string literal body by repeated `parseStringItem` steps.
Each successful step consumes at least one character, so any fuel above
the input length is enough. -/
def parseStringBodyAux : Nat → List Char → Option (List Char × List Char)
  | 0, _ => none
  | fuel + 1, cs =>
    match parseStringItem cs with
    | none => none
    | some (none, rest) => some ([], rest)
    | some (some ch, rest) => consStrChar ch (parseStringBodyAux fuel rest)

/-- Parse the body of a JSON string literal (the opening quote already
consumed), returning the decoded characters and the input after the
closing quote. -/
def parseStringBody (cs : List Char) : Option (List Char × List Char) :=
  parseStringBodyAux (cs.length + 1) cs

/-- Split the maximal run of leading decimal digits from the input. -/
def splitDigits : List Char → List Char × List Char
  | [] => ([], [])
  | c :: rest =>
    if isDigitChar c then
      match splitDigits rest with
      | (ds, r) => (c :: ds, r)
    else ([], c :: rest)

/-- Value of a digit run, accumulator style. -/
def digitsToNat : Nat → List Char → Nat
  | acc, [] => acc
  | acc, c :: rest => digitsToNat (acc * 10 + (c.toNat - 48)) rest

/-- Leading-zero test of JSON numbers: a zero digit may not be followed
by further digits. -/
def hasBadLeadingZero : List Char → Bool
  | c :: _ :: _ => c = digitChar 0
  | _ => false

/-- Parse an unsigned JSON integer literal. The model accepts exactly
the integral literals (a following `.`, `e` or `E`, which would start a
fraction or exponent in full JSON, is rejected rather than read as a
float; see `Json`). -/
def parseNumberNat (cs : List Char) : Option (Nat × List Char) :=
  match splitDigits cs with
  | ([], _) => none
  | (ds, r) =>
    if hasBadLeadingZero ds then none
    else
      match r with
      | [] => some (digitsToNat 0 ds, [])
      | c :: r2 =>
        if c = '.' ∨ c = 'e' ∨ c = 'E' then none
        else some (digitsToNat 0 ds, c :: r2)

/-- Parse a JSON number (optional minus sign then an integer literal). -/
def parseNumber (cs : List Char) : Option (Json × List Char) :=
  match cs with
  | [] => none
  | c :: r =>
    if c = '-' then
      match parseNumberNat r with
      | some (m, r2) => some (.jnum (-(m : Int)), r2)
      | none => none
    else
      match parseNumberNat (c :: r) with
      | some (m, r2) => some (.jnum (m : Int), r2)
      | none => none

/-- Repack a parsed string body as a `jstr` result. -/
def mapStr : Option (List Char × List Char) → Option (Json × List Char)
  | some (s, r) => some (.jstr (String.mk s), r)
  | none => none

/-- Repack a parsed element list as a `jarr` result. -/
def mapArr : Option (List Json × List Char) → Option (Json × List Char)
  | some (es, r) => some (.jarr es, r)
  | none => none

/-- Repack a parsed member list as a `jobj` result. -/
def mapObj : Option (List (String × Json) × List Char) → Option (Json × List Char)
  | some (fs, r) => some (.jobj fs, r)
  | none => none

/-- Prepend an element to an element-list result. -/
def consElem (j : Json) : Option (List Json × List Char) → Option (List Json × List Char)
  | some (es, r) => some (j :: es, r)
  | none => none

/-- Prepend a member to a member-list result. -/
def consMember (k : String) (v : Json) :
    Option (List (String × Json) × List Char) → Option (List (String × Json) × List Char)
  | some (fs, r) => some ((k, v) :: fs, r)
  | none => none

mutual

/-- Parse a JSON value: leading whitespace, then a string, literal,
array, object or number. `fuel` bounds the recursion depth. -/
def parseVal : Nat → List Char → Option (Json × List Char)
  | 0, _ => none
  | fuel + 1, cs =>
    match skipWs cs with
    | [] => none
    | c :: rest =>
      if c = '"' then mapStr (parseStringBody rest)
      else if c = 'n' then
        match rest with
        | c1 :: c2 :: c3 :: r =>
          if c1 = 'u' ∧ c2 = 'l' ∧ c3 = 'l' then some (.jnull, r) else none
        | _ => none
      else if c = 't' then
        match rest with
        | c1 :: c2 :: c3 :: r =>
          if c1 = 'r' ∧ c2 = 'u' ∧ c3 = 'e' then some (.jbool true, r) else none
        | _ => none
      else if c = 'f' then
        match rest with
        | c1 :: c2 :: c3 :: c4 :: r =>
          if c1 = 'a' ∧ c2 = 'l' ∧ c3 = 's' ∧ c4 = 'e' then some (.jbool false, r) else none
        | _ => none
      else if c = '[' then
        match skipWs rest with
        | [] => none
        | d :: r2 =>
          if d = ']' then some (.jarr [], r2)
          else mapArr (parseElems fuel (d :: r2))
      else if c = '{' then
        match skipWs rest with
        | [] => none
        | d :: r2 =>
          if d = '}' then some (.jobj [], r2)
          else mapObj (parseMembers fuel (d :: r2))
      else parseNumber (c :: rest)

/-- Parse one or more comma-separated array elements followed by the
closing bracket, which is consumed. -/
def parseElems : Nat → List Char → Option (List Json × List Char)
  | 0, _ => none
  | fuel + 1, cs =>
    match parseVal fuel cs with
    | none => none
    | some (j, r) =>
      match skipWs r with
      | [] => none
      | d :: r2 =>
        if d = ',' then consElem j (parseElems fuel r2)
        else if d = ']' then some ([j], r2)
        else none

/-- Parse one or more comma-separated object members followed by the
closing brace, which is consumed. -/
def parseMembers : Nat → List Char → Option (List (String × Json) × List Char)
  | 0, _ => none
  | fuel + 1, cs =>
    match skipWs cs with
    | [] => none
    | c :: rest =>
      if c = '"' then
        match parseStringBody rest with
        | none => none
        | some (k, r) =>
          match skipWs r with
          | [] => none
          | d :: r2 =>
            if d = ':' then
              match parseVal fuel r2 with
              | none => none
              | some (v, r3) =>
                match skipWs r3 with
                | [] => none
                | d2 :: r4 =>
                  if d2 = ',' then consMember (String.mk k) v (parseMembers fuel r4)
                  else if d2 = '}' then some ([(String.mk k, v)], r4)
                  else none
            else none
      else none

end

/-- `JSON.parse` on a character list: parse one value and require only
whitespace to remain. The fuel `2 * length + 2` dominates the recursion
depth of any parse (each two fuel steps consume at least one input
character; `jsonFuel_lt` below makes this precise for printed values). -/
def jsonParseChars (cs : List Char) : Option Json :=
  match parseVal (2 * cs.length + 2) cs with
  | some (j, r) => if skipWs r = [] then some j else none
  | none => none

/-- `JSON.parse`. -/
def jsonParse (s : String) : Option Json := jsonParseChars s.toList

/-! ## Data model (`auth.ts`) -/

/-- The membership tiers of the `User` interface. -/
inductive MembershipType where
  | basic
  | premium
  | elite
deriving DecidableEq

/-- String form of a membership tier, as it appears in JSON. -/
def MembershipType.toStr : MembershipType → String
  | .basic => "basic"
  | .premium => "premium"
  | .elite => "elite"

/-- Membership tier of a string, inverse of `MembershipType.toStr`. -/
def memTypeOfString (s : String) : Option MembershipType :=
  if s = "basic" then some .basic
  else if s = "premium" then some .premium
  else if s = "elite" then some .elite
  else none

/-- The `User` interface of `auth.ts`: id, email, name, membership type
and enrollment date, fields in declaration order. -/
structure User where
  id : String
  email : String
  name : String
  membershipType : MembershipType
  memberSince : String
deriving DecidableEq

/-- JSON object representing a `User`, fields in the declaration order
`JSON.stringify` serializes them in. -/
def userToJson (u : User) : Json :=
  .jobj [("id", .jstr u.id), ("email", .jstr u.email), ("name", .jstr u.name),
    ("membershipType", .jstr u.membershipType.toStr), ("memberSince", .jstr u.memberSince)]

/-- Look up a key in a JSON object's member list. Later duplicates win,
matching the JS object produced by `JSON.parse`. -/
def lookupField : List (String × Json) → String → Option Json
  | [], _ => none
  | (k, v) :: rest, key =>
    match lookupField rest key with
    | some r => some r
    | none => if k = key then some v else none

/-- Read a `User` back out of a JSON value: an object whose five fields
are all present as strings with a valid membership tier. -/
def jsonToUser (j : Json) : Option User :=
  match j with
  | .jobj fs =>
    match lookupField fs "id", lookupField fs "email", lookupField fs "name",
        lookupField fs "membershipType", lookupField fs "memberSince" with
    | some (.jstr i), some (.jstr e), some (.jstr nm), some (.jstr mt), some (.jstr ms) =>
      match memTypeOfString mt with
      | some t => some ⟨i, e, nm, t, ms⟩
      | none => none
    | _, _, _, _, _ => none
  | _ => none

/-! ## Token codec (`generateMockToken` / the decode expression) -/

/-- The constant token header `\x7b"alg":"HS256","typ":"JWT"\x7d`. -/
def headerJson : Json := .jobj [("alg", .jstr "HS256"), ("typ", .jstr "JWT")]

/-- The token payload `\x7buser, exp: Date.now() + 3600000\x7d`;
`now` stands for the ambient `Date.now()` value. -/
def payloadJson (u : User) (now : Int) : Json :=
  .jobj [("user", userToJson u), ("exp", .jnum (now + 3600000))]

/-- `generateMockToken`: base64 header and payload joined with the
constant signature segment. `none` models the uncaught
`InvalidCharacterError` that `btoa` throws when the serialized payload
has a character above U+00FF. -/
def generateMockToken (u : User) (now : Int) : Option String :=
  match btoa (jsonToString headerJson), btoa (jsonToString (payloadJson u now)) with
  | some header, some payload => some (header ++ "." ++ payload ++ "." ++ "mock-signature")
  | _, _ => none

/-- A JS expression value that may be `undefined`. -/
inductive JsValue where
  | undefined
  | val (j : Json)

/-- JS property access `payload.user`: `none` models the `TypeError`
thrown on `null`; objects yield the field or `undefined`; every other
JSON value has no own properties, yielding `undefined`. -/
def propUser (j : Json) : Option JsValue :=
  match j with
  | .jnull => none
  | .jobj fs =>
    match lookupField fs "user" with
    | some v => some (.val v)
    | none => some .undefined
  | _ => some .undefined

/-- The shared try-block expression
`JSON.parse(atob(token.split('.')[1])).user` of `verifyToken` and
`getCurrentUser`: `none` models any exception thrown inside the block
(`atob`'s coercion of a missing segment to the string `"undefined"`
included). -/
def decodeUserField (token : String) : Option JsValue :=
  match atob (((splitDot token).get? 1).getD "undefined") with
  | none => none
  | some payloadStr =>
    match jsonParse payloadStr with
    | none => none
    | some payload => propUser payload

/-- `verifyToken` (the delay aside): returns the decoded `user` field,
or the `Invalid token` error when the try-block throws. -/
def verifyToken (token : String) : Except String JsValue :=
  match decodeUserField token with
  | none => .error "Invalid token"
  | some v => .ok v

/-! ## Login and session lookup -/

/-- The placeholder user fabricated by `login`, parameterized only by
the supplied email. -/
def mockUser (email : String) : User :=
  ⟨"user-123", email, "Jane Doe", .premium, "2024-01-15"⟩

/-- `login` (the delay aside): fails with `Invalid credentials` for the
sentinel password, otherwise returns the mock token and user.
`InvalidCharacterError` models the uncaught `btoa` failure on an email
with a character above U+00FF. -/
def login (email password : String) (now : Int) : Except String (String × User) :=
  if password = "error" then .error "Invalid credentials"
  else
    match generateMockToken (mockUser email) now with
    | some token => .ok (token, mockUser email)
    | none => .error "InvalidCharacterError"

/-- Ambient client storage: whether `localStorage` exists in the
execution environment, and the string stored under the `auth_token`
key (`none` when the key is absent). The module only reads it. -/
structure StorageState where
  available : Bool
  authToken : Option String

/-- Result of `getCurrentUser`: `null`, `undefined` (a decoded payload
without a `user` field) or a decoded non-null value. A decoded JSON
`null` user field is the very JS value `null`, indistinguishable from
the failure return, so it is classified `jsNull`, never `user .jnull`.
-/
inductive CurrentUserResult where
  | jsNull
  | jsUndefined
  | user (j : Json)

/-- `getCurrentUser`: `null` when storage is unavailable, the key is
absent or holds the empty string (falsy in the `if (!token)` guard), or
the decode expression throws; otherwise the decoded `user` field, which
may be `undefined`. A decoded JSON `null` user field is returned as the
JS value `null` itself, the same value as the failure return. -/
def getCurrentUser (st : StorageState) : CurrentUserResult :=
  if st.available then
    match st.authToken with
    | none => .jsNull
    | some token =>
      if token = "" then .jsNull
      else
        match decodeUserField token with
        | none => .jsNull
        | some .undefined => .jsUndefined
        | some (.val Json.jnull) => .jsNull
        | some (.val j) => .user j
  else .jsNull

/-- `isAuthenticated`: the strict comparison `getCurrentUser() !== null`
(`undefined` is not `null`, so it also counts as authenticated). -/
def isAuthenticated (st : StorageState) : Bool :=
  match getCurrentUser st with
  | .jsNull => false
  | _ => true

/-- `logout`: the function body is a bare `return`; it reads and writes
no state, modelled as the identity on ambient storage. -/
def logout (st : StorageState) : StorageState × Unit := (st, ())

/-- `randomDelay`'s computed delay
`Math.floor(Math.random() * (max - min + 1)) + min`, with the float
arithmetic modelled exactly over `ℚ`; `r` stands for the ambient
`Math.random()` draw. -/
def randomDelay (min max : Int) (r : ℚ) : Int :=
  ⌊r * ((max : ℚ) - (min : ℚ) + 1)⌋ + min

/-- The delay drawn by `login`, bounds 500 and 2000. -/
def loginDelay (r : ℚ) : Int := randomDelay 500 2000 r

/-- The delay drawn by `verifyToken`, bounds 100 and 500. -/
def verifyDelay (r : ℚ) : Int := randomDelay 100 500 r

/-! ## Base64 lemmas -/

/-- Alphabet lookup inverts alphabet indexing. -/
theorem b64index_b64char : ∀ n, n < 64 → b64index (b64char n) = some n := by decide

/-- Alphabet characters are never the padding character. -/
theorem b64char_ne_eq : ∀ n, n < 64 → b64char n ≠ '=' := by decide

/-- Every `b64char` value is an alphabet character (out-of-range indices
default to `A`). -/
theorem b64char_mem_alphabet (n : Nat) : b64char n ∈ b64alphabet := by
  by_cases h : n < 64
  · exact (by decide : ∀ m, m < 64 → b64char m ∈ b64alphabet) n h
  · unfold b64char
    rw [List.getD_eq_default]
    · decide
    · have : b64alphabet.length = 64 := by decide
      omega

/-- Alphabet characters are not base64 whitespace, not a dot, and not
the padding character. -/
theorem b64alphabet_char_props :
    ∀ c ∈ b64alphabet, isB64Ws c = false ∧ c ≠ '.' ∧ c ≠ '=' := by decide

/-- Every character emitted by the base64 encoder is an alphabet
character or padding. -/
theorem mem_encodeChunks : ∀ bs, ∀ c ∈ encodeChunks bs, c ∈ b64alphabet ∨ c = '='
  | [], c, h => absurd h (by simp [encodeChunks])
  | [a], c, h => by
    simp only [encodeChunks, List.mem_cons, List.not_mem_nil, or_false] at h
    rcases h with h | h | h | h <;> subst h <;>
      first
        | exact Or.inl (b64char_mem_alphabet _)
        | exact Or.inr rfl
  | [a, b], c, h => by
    simp only [encodeChunks, List.mem_cons, List.not_mem_nil, or_false] at h
    rcases h with h | h | h | h <;> subst h <;>
      first
        | exact Or.inl (b64char_mem_alphabet _)
        | exact Or.inr rfl
  | a :: b :: d :: rest, c, h => by
    simp only [encodeChunks, List.mem_cons] at h
    rcases h with h | h | h | h | h
    · exact h ▸ Or.inl (b64char_mem_alphabet _)
    · exact h ▸ Or.inl (b64char_mem_alphabet _)
    · exact h ▸ Or.inl (b64char_mem_alphabet _)
    · exact h ▸ Or.inl (b64char_mem_alphabet _)
    · exact mem_encodeChunks rest c h

/-- Chunked decode inverts chunked encode on byte lists. -/
theorem decodeChunks_encodeChunks :
    ∀ bs : List Nat, (∀ b ∈ bs, b < 256) → decodeChunks (encodeChunks bs) = some bs
  | [], _ => rfl
  | [a], h => by
    have ha : a < 256 := h a (by simp)
    have h1 : a / 4 < 64 := by omega
    have h2 : a % 4 * 16 < 64 := by omega
    simp only [encodeChunks, decodeChunks, reduceIte,
      b64index_b64char _ h1, b64index_b64char _ h2]
    congr 2
    omega
  | [a, b], h => by
    have ha : a < 256 := h a (by simp)
    have hb : b < 256 := h b (by simp)
    have h1 : a / 4 < 64 := by omega
    have h2 : a % 4 * 16 + b / 16 < 64 := by omega
    have h3 : b % 16 * 4 < 64 := by omega
    simp only [encodeChunks, decodeChunks, reduceIte, if_neg (b64char_ne_eq _ h3),
      b64index_b64char _ h1, b64index_b64char _ h2, b64index_b64char _ h3]
    congr 1
    have e1 : a / 4 * 4 + (a % 4 * 16 + b / 16) / 16 = a := by omega
    have e2 : (a % 4 * 16 + b / 16) % 16 * 16 + b % 16 * 4 / 4 = b := by omega
    rw [e1, e2]
  | a :: b :: d :: rest, h => by
    have ha : a < 256 := h a (by simp)
    have hb : b < 256 := h b (by simp)
    have hd : d < 256 := h d (by simp)
    have h1 : a / 4 < 64 := by omega
    have h2 : a % 4 * 16 + b / 16 < 64 := by omega
    have h3 : b % 16 * 4 + d / 64 < 64 := by omega
    have h4 : d % 64 < 64 := by omega
    have ih := decodeChunks_encodeChunks rest (fun x hx => h x (by simp [hx]))
    simp only [encodeChunks, decodeChunks, if_neg (b64char_ne_eq _ h4),
      b64index_b64char _ h1, b64index_b64char _ h2, b64index_b64char _ h3,
      b64index_b64char _ h4, ih]
    congr 1
    have e1 : a / 4 * 4 + (a % 4 * 16 + b / 16) / 16 = a := by omega
    have e2 : (a % 4 * 16 + b / 16) % 16 * 16 + (b % 16 * 4 + d / 64) / 4 = b := by omega
    have e3 : (b % 16 * 4 + d / 64) % 4 * 64 + d % 64 = d := by omega
    rw [e1, e2, e3]

/-- The encoder output contains no base64 whitespace, so `atob`'s
whitespace stripping leaves it unchanged. -/
theorem filter_encodeChunks (bs : List Nat) :
    (encodeChunks bs).filter (fun c => !isB64Ws c) = encodeChunks bs := by
  rw [List.filter_eq_self]
  intro c hc
  rcases mem_encodeChunks bs c hc with h | h
  · simp [(b64alphabet_char_props c h).1]
  · subst h; decide

/-- The encoder output contains no dot, so `split('.')` never cuts a
base64 segment. -/
theorem dot_not_mem_encodeChunks (bs : List Nat) : '.' ∉ encodeChunks bs := by
  intro hmem
  rcases mem_encodeChunks bs '.' hmem with h | h
  · exact (b64alphabet_char_props _ h).2.1 rfl
  · exact absurd h (by decide)

/-- `btoa` succeeds exactly on Latin-1 strings, with the chunked
encoding as value. -/
theorem btoa_eq_some (s : String) (h : ∀ c ∈ s.toList, c.toNat < 256) :
    btoa s = some (String.mk (encodeChunks (s.toList.map Char.toNat))) := by
  unfold btoa
  rw [if_pos]
  rw [List.all_eq_true]
  intro c hc
  simpa using h c hc

/-- Round trip: `atob` recovers any Latin-1 string from its `btoa`
encoding. -/
theorem atob_btoa (s : String) (h : ∀ c ∈ s.toList, c.toNat < 256) :
    atob (String.mk (encodeChunks (s.toList.map Char.toNat))) = some s := by
  unfold atob
  have htl : (String.mk (encodeChunks (s.toList.map Char.toNat))).toList
      = encodeChunks (s.toList.map Char.toNat) := rfl
  rw [htl, filter_encodeChunks, decodeChunks_encodeChunks]
  · show some (String.mk ((s.toList.map Char.toNat).map Char.ofNat)) = some s
    congr 1
    rw [List.map_map]
    have : s.toList.map (Char.ofNat ∘ Char.toNat) = s.toList.map id := by
      apply List.map_congr_left
      intro c _
      exact Char.ofNat_toNat c
    rw [this, List.map_id]
    rfl
  · intro b hb
    rw [List.mem_map] at hb
    obtain ⟨c, hc, rfl⟩ := hb
    exact h c hc

/-! ## String and split lemmas -/

/-- Rebuilding a string from its character list is the identity. -/
theorem stringMk_toList (s : String) : String.mk s.toList = s := rfl

/-- Character list of an appended string. -/
theorem toList_append (a b : String) : (a ++ b).toList = a.toList ++ b.toList := by
  cases a; cases b; rfl

/-- Splitting at an explicit dot after a dot-free chunk cuts exactly
there. -/
theorem splitDotChars_append :
    ∀ xs ys : List Char, '.' ∉ xs → splitDotChars (xs ++ '.' :: ys) = xs :: splitDotChars ys
  | [], ys, _ => by simp [splitDotChars]
  | c :: xs, ys, h => by
    have hc : c ≠ '.' := fun e => h (by simp [e])
    have ih := splitDotChars_append xs ys (fun hm => h (by simp [hm]))
    have e1 : splitDotChars (c :: xs ++ '.' :: ys)
        = match splitDotChars (xs ++ '.' :: ys) with
          | [] => [[c]]
          | s :: ss => (c :: s) :: ss := by
      show (if c = '.' then [] :: splitDotChars (xs ++ '.' :: ys)
          else match splitDotChars (xs ++ '.' :: ys) with
            | [] => [[c]]
            | s :: ss => (c :: s) :: ss)
        = match splitDotChars (xs ++ '.' :: ys) with
          | [] => [[c]]
          | s :: ss => (c :: s) :: ss
      rw [if_neg hc]
    rw [e1, ih]

/-! ## Digit-printing lemmas -/

/-- Digit characters have the expected code points. -/
theorem digitChar_toNat : ∀ d, d < 10 → (digitChar d).toNat = 48 + d := by decide

/-- Digit characters pass the digit test. -/
theorem isDigitChar_digitChar : ∀ d, d < 10 → isDigitChar (digitChar d) = true := by decide

/-- Characters with distinct code points are distinct. -/
theorem ne_of_toNat_ne {c d : Char} (h : c.toNat ≠ d.toNat) : c ≠ d :=
  fun e => h (e ▸ rfl)

/-- The digit test bounds the code point. -/
theorem isDigitChar_toNat {c : Char} (h : isDigitChar c = true) :
    48 ≤ c.toNat ∧ c.toNat ≤ 57 := by
  simpa [isDigitChar, Bool.and_eq_true, decide_eq_true_eq] using h

/-- A digit character is not whitespace and is none of the structural
characters the JSON-value dispatch tests for. -/
theorem digit_dispatch_facts {c : Char} (h : isDigitChar c = true) :
    isJsonWs c = false ∧ c ≠ '"' ∧ c ≠ 'n' ∧ c ≠ 't' ∧ c ≠ 'f' ∧ c ≠ '[' ∧ c ≠ '{' ∧
      c ≠ ']' ∧ c ≠ '}' ∧ c ≠ ',' ∧ c ≠ '-' := by
  obtain ⟨h1, h2⟩ := isDigitChar_toNat h
  have hne : ∀ d : Char, d.toNat < 48 ∨ 57 < d.toNat → c ≠ d := by
    intro d hd e
    subst e
    omega
  have hws : isJsonWs c = false := by
    rcases Bool.eq_false_or_eq_true (isJsonWs c) with hT | hF
    · have hd : ((c = ' ' ∨ c = Char.ofNat 9) ∨ c = Char.ofNat 10) ∨ c = Char.ofNat 13 := by
        simpa [isJsonWs] using hT
      rcases hd with ((e | e) | e) | e <;> exact absurd (e ▸ h) (by decide)
    · exact hF
  exact ⟨hws, hne _ (by decide), hne _ (by decide), hne _ (by decide), hne _ (by decide),
    hne _ (by decide), hne _ (by decide), hne _ (by decide), hne _ (by decide),
    hne _ (by decide), hne _ (by decide)⟩

/-- Every character printed for a natural number is a digit. -/
theorem natToCharsAux_digits :
    ∀ f n, n < f → ∀ c ∈ natToCharsAux f n, isDigitChar c = true
  | 0, n, h, _, _ => absurd h (by omega)
  | f + 1, n, h, c, hc => by
    by_cases h10 : n < 10
    · simp only [natToCharsAux, if_pos h10, List.mem_singleton] at hc
      exact hc ▸ isDigitChar_digitChar n h10
    · simp only [natToCharsAux, if_neg h10, List.mem_append, List.mem_singleton] at hc
      rcases hc with hc | hc
      · exact natToCharsAux_digits f (n / 10) (by omega) c hc
      · exact hc ▸ isDigitChar_digitChar (n % 10) (by omega)

/-- The printed form of a natural number is nonempty, begins with a
digit, and begins with a nonzero digit when the number is nonzero. -/
theorem natToCharsAux_cons :
    ∀ f n, n < f → ∃ c t, natToCharsAux f n = c :: t ∧ isDigitChar c = true ∧
      (1 ≤ n → c ≠ digitChar 0)
  | 0, n, h => absurd h (by omega)
  | f + 1, n, h => by
    by_cases h10 : n < 10
    · refine ⟨digitChar n, [], by simp [natToCharsAux, h10], isDigitChar_digitChar n h10, ?_⟩
      intro h1
      exact (by decide : ∀ d, d < 10 → 1 ≤ d → digitChar d ≠ digitChar 0) n h10 h1
    · obtain ⟨c, t, he, hd, hz⟩ := natToCharsAux_cons f (n / 10) (by omega)
      exact ⟨c, t ++ [digitChar (n % 10)], by simp [natToCharsAux, h10, he], hd,
        fun _ => hz (by omega)⟩

/-- Unfolding rule for `digitsToNat` on a cons cell (the generated
equation lemmas of the accumulating definition loop under `simp`). -/
theorem digitsToNat_cons (acc : Nat) (c : Char) (rest : List Char) :
    digitsToNat acc (c :: rest) = digitsToNat (acc * 10 + (c.toNat - 48)) rest := rfl

/-- Unfolding rule for `digitsToNat` on the empty list. -/
theorem digitsToNat_nil (acc : Nat) : digitsToNat acc [] = acc := rfl

/-- Accumulator form of digit evaluation over an append. -/
theorem digitsToNat_append :
    ∀ (xs : List Char) (acc : Nat) (ys : List Char),
      digitsToNat acc (xs ++ ys) = digitsToNat (digitsToNat acc xs) ys
  | [], _, _ => rfl
  | c :: xs, acc, ys => by
    simp only [List.cons_append, digitsToNat_cons]
    exact digitsToNat_append xs _ ys

/-- Digit evaluation inverts digit printing (accumulator form). -/
theorem digitsToNat_natToCharsAux :
    ∀ f n, n < f → ∀ acc,
      digitsToNat acc (natToCharsAux f n) = acc * 10 ^ (natToCharsAux f n).length + n
  | 0, n, h, _ => absurd h (by omega)
  | f + 1, n, h, acc => by
    by_cases h10 : n < 10
    · simp only [natToCharsAux, if_pos h10, digitsToNat_cons, digitsToNat_nil,
        List.length_singleton, digitChar_toNat n h10, pow_one]
      omega
    · have ih := digitsToNat_natToCharsAux f (n / 10) (by omega)
      simp only [natToCharsAux, if_neg h10, digitsToNat_append, ih acc, digitsToNat_cons,
        digitsToNat_nil, List.length_append, List.length_singleton,
        digitChar_toNat (n % 10) (by omega)]
      rw [pow_succ, ← mul_assoc]
      omega

/-- The printed form of `n` is nonempty with the stated head facts. -/
theorem natToChars_cons (n : Nat) :
    ∃ c t, natToChars n = c :: t ∧ isDigitChar c = true ∧ (1 ≤ n → c ≠ digitChar 0) :=
  natToCharsAux_cons (n + 1) n (by omega)

/-- Every character printed for `n` is a digit. -/
theorem natToChars_digits (n : Nat) : ∀ c ∈ natToChars n, isDigitChar c = true :=
  natToCharsAux_digits (n + 1) n (by omega)

/-- Digit evaluation inverts digit printing. -/
theorem digitsToNat_natToChars (n : Nat) : digitsToNat 0 (natToChars n) = n := by
  have := digitsToNat_natToCharsAux (n + 1) n (by omega) 0
  simpa [natToChars] using this

/-- Numbers below ten print as a single digit. -/
theorem natToChars_lt10 {n : Nat} (h : n < 10) : natToChars n = [digitChar n] := by
  simp [natToChars, natToCharsAux, h]

/-- Splitting digits off a digit run followed by a non-digit recovers
the run. -/
theorem splitDigits_append :
    ∀ ds rest : List Char, (∀ c ∈ ds, isDigitChar c = true) →
      (∀ c t, rest = c :: t → isDigitChar c = false) →
      splitDigits (ds ++ rest) = (ds, rest)
  | [], rest, _, hr => by
    cases rest with
    | nil => rfl
    | cons c t => simp [splitDigits, hr c t rfl]
  | d :: ds, rest, hd, hr => by
    have ih := splitDigits_append ds rest (fun c hc => hd c (by simp [hc])) hr
    simp [splitDigits, hd d (by simp), ih]

/-! ## Number-parsing lemmas -/

/-- The characters that may legitimately follow a printed JSON value
inside a larger printed document: nothing, or a separator/closer. -/
def delimHead : List Char → Bool
  | [] => true
  | c :: _ => c = ',' || c = ']' || c = '}'

/-- A delimiter head is not a digit and not a fraction/exponent
starter. -/
theorem delimHead_facts {rest : List Char} (h : delimHead rest = true) :
    ∀ c t, rest = c :: t → isDigitChar c = false ∧ c ≠ '.' ∧ c ≠ 'e' ∧ c ≠ 'E' := by
  intro c t he
  subst he
  have hd : (c = ',' ∨ c = ']') ∨ c = '}' := by simpa [delimHead] using h
  rcases hd with (e | e) | e <;> subst e <;>
    exact ⟨by decide, by decide, by decide, by decide⟩

/-- Parsing an unsigned integer literal printed by `natToChars` and
followed by a delimiter recovers the number. -/
theorem parseNumberNat_print (n : Nat) (rest : List Char) (h : delimHead rest = true) :
    parseNumberNat (natToChars n ++ rest) = some (n, rest) := by
  obtain ⟨c, t, he, hdig, hz⟩ := natToChars_cons n
  have hnd : ∀ c' t', rest = c' :: t' → isDigitChar c' = false :=
    fun c' t' he' => (delimHead_facts h c' t' he').1
  have hsplit : splitDigits (natToChars n ++ rest) = (natToChars n, rest) :=
    splitDigits_append _ _ (natToChars_digits n) hnd
  have hbad : hasBadLeadingZero (natToChars n) = false := by
    rw [he]
    cases t with
    | nil => rfl
    | cons t0 t1 =>
      have hge : ¬ n < 10 := by
        intro hlt
        rw [natToChars_lt10 hlt] at he
        simp at he
      have hcz := hz (by omega)
      simpa [hasBadLeadingZero] using hcz
  have hval : digitsToNat 0 (natToChars n) = n := digitsToNat_natToChars n
  rw [he] at hbad hval
  unfold parseNumberNat
  rw [hsplit, he]
  show (if hasBadLeadingZero (c :: t) then none
      else match rest with
        | [] => some (digitsToNat 0 (c :: t), [])
        | c' :: r2 =>
          if c' = '.' ∨ c' = 'e' ∨ c' = 'E' then none
          else some (digitsToNat 0 (c :: t), c' :: r2))
    = some (n, rest)
  rw [hbad]
  simp only [Bool.false_eq_true, if_false]
  cases rest with
  | nil => rw [hval]
  | cons c' r2 =>
    obtain ⟨_, hdot, hle, hbe⟩ := delimHead_facts h c' r2 rfl
    show (if c' = '.' ∨ c' = 'e' ∨ c' = 'E' then none
        else some (digitsToNat 0 (c :: t), c' :: r2))
      = some (n, c' :: r2)
    rw [if_neg (by simp [hdot, hle, hbe]), hval]

/-- Parsing an integer literal printed by `intToChars` and followed by
a delimiter recovers the `jnum` value. -/
theorem parseNumber_print (n : Int) (rest : List Char) (h : delimHead rest = true) :
    parseNumber (intToChars n ++ rest) = some (.jnum n, rest) := by
  by_cases hn : n < 0
  · have he : intToChars n = '-' :: natToChars n.natAbs := by simp [intToChars, hn]
    rw [he]
    have e1 : parseNumber (('-' :: natToChars n.natAbs) ++ rest)
        = match parseNumberNat (natToChars n.natAbs ++ rest) with
          | some (m, r2) => some (Json.jnum (-(m : Int)), r2)
          | none => none := rfl
    rw [e1, parseNumberNat_print _ _ h]
    show some (Json.jnum (-(n.natAbs : Int)), rest) = some (Json.jnum n, rest)
    have e2 : -((n.natAbs : Int)) = n := by omega
    rw [e2]
  · have he : intToChars n = natToChars n.toNat := by simp [intToChars, hn]
    obtain ⟨c, t, hce, hdig, _⟩ := natToChars_cons n.toNat
    obtain ⟨_, _, _, _, _, _, _, _, _, _, hmn⟩ := digit_dispatch_facts hdig
    rw [he, hce, List.cons_append]
    simp only [parseNumber]
    rw [if_neg hmn]
    have e2 : c :: (t ++ rest) = (c :: t) ++ rest := rfl
    rw [e2, ← hce, parseNumberNat_print _ _ h]
    show some (Json.jnum ((n.toNat : Nat) : Int), rest) = some (Json.jnum n, rest)
    have e3 : ((n.toNat : Nat) : Int) = n := by omega
    rw [e3]


/-! ## String-escape round trip -/

/-- Hex parsing inverts hex printing on digit values. -/
theorem hexVal_hexDigitChar : ∀ d, d < 16 → hexVal (hexDigitChar d) = some d := by decide

/-- A closing quote yields the end-of-string item. -/
theorem parseStringItem_quote (L : List Char) :
    parseStringItem ('"' :: L) = some (none, L) := rfl

/-- Parsing one item of an escaped character recovers that character,
whatever it is. -/
theorem parseStringItem_escape (c : Char) (L : List Char) :
    parseStringItem (escapeChar c ++ L) = some (some c, L) := by
  by_cases h1 : c = '"'
  · subst h1; rfl
  · by_cases h2 : c = '\\'
    · subst h2; rfl
    · by_cases h3 : c = Char.ofNat 8
      · subst h3; rfl
      · by_cases h4 : c = Char.ofNat 12
        · subst h4; rfl
        · by_cases h5 : c = Char.ofNat 10
          · subst h5; rfl
          · by_cases h6 : c = Char.ofNat 13
            · subst h6; rfl
            · by_cases h7 : c = Char.ofNat 9
              · subst h7; rfl
              · by_cases h8 : c.toNat < 32
                · rw [show escapeChar c
                      = ['\\', 'u', '0', '0', hexDigitChar (c.toNat / 16),
                          hexDigitChar (c.toNat % 16)] from by
                    simp [escapeChar, h1, h2, h3, h4, h5, h6, h7, h8]]
                  have hx : hex4 '0' '0' (hexDigitChar (c.toNat / 16))
                      (hexDigitChar (c.toNat % 16)) = some c.toNat := by
                    unfold hex4
                    rw [hexVal_hexDigitChar _ (by omega), hexVal_hexDigitChar _ (by omega)]
                    show some (((0 * 16 + 0) * 16 + c.toNat / 16) * 16 + c.toNat % 16)
                      = some c.toNat
                    congr 1
                    omega
                  simp only [List.cons_append, List.nil_append, parseStringItem, reduceIte]
                  rw [hx]
                  show (if c.toNat < 55296 then some (some (Char.ofNat c.toNat), L)
                      else if c.toNat ≤ 56319 then
                        match L with
                        | q1 :: q2 :: g1 :: g2 :: g3 :: g4 :: rest4 =>
                          if q1 = '\\' ∧ q2 = 'u' then
                            match hex4 g1 g2 g3 g4 with
                            | none => none
                            | some m =>
                              if 56320 ≤ m ∧ m ≤ 57343 then
                                some (some (Char.ofNat
                                  (65536 + (c.toNat - 55296) * 1024 + (m - 56320))), rest4)
                              else none
                          else none
                        | _ => none
                      else if c.toNat ≤ 57343 then none
                      else some (some (Char.ofNat c.toNat), L))
                    = some (some c, L)
                  rw [if_pos (by omega : c.toNat < 55296), Char.ofNat_toNat]
                · rw [show escapeChar c = [c] from by
                      simp [escapeChar, h1, h2, h3, h4, h5, h6, h7, h8]]
                  show parseStringItem (c :: L) = some (some c, L)
                  simp only [parseStringItem]
                  rw [if_neg h1, if_neg h2, if_neg h8]

/-- Every escape sequence is nonempty. -/
theorem escapeChar_length_pos (c : Char) : 1 ≤ (escapeChar c).length := by
  unfold escapeChar
  split_ifs <;> simp

/-- Scanning a printed string body with enough fuel recovers the
original characters. -/
theorem parseStringBodyAux_escape :
    ∀ (cs : List Char) (fuel : Nat) (rest : List Char), (escList cs).length < fuel →
      parseStringBodyAux fuel (escList cs ++ '"' :: rest) = some (cs, rest)
  | [], fuel, rest, h => by
    obtain ⟨f, rfl⟩ : ∃ f, fuel = f + 1 := ⟨fuel - 1, by omega⟩
    show parseStringBodyAux (f + 1) ('"' :: rest) = some ([], rest)
    simp only [parseStringBodyAux, parseStringItem_quote]
  | c :: cs, fuel, rest, h => by
    have hlen : (escList (c :: cs)).length = (escapeChar c).length + (escList cs).length := by
      rw [show escList (c :: cs) = escapeChar c ++ escList cs from rfl, List.length_append]
    have hpos := escapeChar_length_pos c
    obtain ⟨f, rfl⟩ : ∃ f, fuel = f + 1 := ⟨fuel - 1, by omega⟩
    have ih := parseStringBodyAux_escape cs f rest (by omega)
    rw [show escList (c :: cs) ++ '"' :: rest
        = escapeChar c ++ (escList cs ++ '"' :: rest) from by
      rw [show escList (c :: cs) = escapeChar c ++ escList cs from rfl, List.append_assoc]]
    simp only [parseStringBodyAux, parseStringItem_escape, ih]
    rfl

/-- Parsing a string body printed by `escList` and closed with a quote
recovers the original characters. -/
theorem parseStringBody_escape (cs rest : List Char) :
    parseStringBody (escList cs ++ '"' :: rest) = some (cs, rest) := by
  unfold parseStringBody
  apply parseStringBodyAux_escape
  rw [List.length_append]
  omega

/-! ## Parser-printer round trip -/

/-- Leading non-whitespace is untouched by `skipWs`. -/
theorem skipWs_cons {c : Char} (h : isJsonWs c = false) (t : List Char) :
    skipWs (c :: t) = c :: t := by simp [skipWs, h]

mutual

/-- Fuel needed by `parseVal` to parse the printed form of a value. -/
def jsonFuel : Json → Nat
  | .jnull => 1
  | .jbool _ => 1
  | .jnum _ => 1
  | .jstr _ => 1
  | .jarr es => 1 + elemsFuel es
  | .jobj fs => 1 + membersFuel fs

/-- Fuel needed by `parseElems` for a printed element list. -/
def elemsFuel : List Json → Nat
  | [] => 1
  | j :: es => 1 + jsonFuel j + elemsFuel es

/-- Fuel needed by `parseMembers` for a printed member list. -/
def membersFuel : List (String × Json) → Nat
  | [] => 1
  | (_, v) :: fs => 1 + jsonFuel v + membersFuel fs

end

/-- Every value needs at least one unit of fuel. -/
theorem jsonFuel_pos (j : Json) : 1 ≤ jsonFuel j := by
  cases j <;> simp [jsonFuel]

/-- Element lists need at least one unit of fuel. -/
theorem elemsFuel_pos (es : List Json) : 1 ≤ elemsFuel es := by
  cases es with
  | nil => simp [elemsFuel]
  | cons j es => simp [elemsFuel]; omega

/-- Member lists need at least one unit of fuel. -/
theorem membersFuel_pos (fs : List (String × Json)) : 1 ≤ membersFuel fs := by
  cases fs with
  | nil => simp [membersFuel]
  | cons kv fs => obtain ⟨k, v⟩ := kv; simp [membersFuel]; omega

/-- The printed form of an integer starts with a character that is not
whitespace and none of the structural characters of the value
dispatch. -/
theorem intToChars_head (n : Int) :
    ∃ c t, intToChars n = c :: t ∧ isJsonWs c = false ∧
      c ≠ '"' ∧ c ≠ 'n' ∧ c ≠ 't' ∧ c ≠ 'f' ∧ c ≠ '[' ∧ c ≠ '{' ∧
      c ≠ ']' ∧ c ≠ '}' ∧ c ≠ ',' := by
  by_cases hn : n < 0
  · exact ⟨'-', natToChars n.natAbs, by simp [intToChars, hn], by decide, by decide, by decide,
      by decide, by decide, by decide, by decide, by decide, by decide, by decide⟩
  · obtain ⟨c, t, hct, hdig, _⟩ := natToChars_cons n.toNat
    obtain ⟨hws, hq, hnc, htc, hfc, hlb, hlcb, hrb, hrcb, hcm, _⟩ := digit_dispatch_facts hdig
    exact ⟨c, t, by simp [intToChars, hn, hct], hws, hq, hnc, htc, hfc, hlb, hlcb, hrb, hrcb, hcm⟩

/-- The printed form of any value starts with a character that is not
whitespace and not a list/object closer or separator. -/
theorem jsonToChars_head (j : Json) :
    ∃ c t, jsonToChars j = c :: t ∧ isJsonWs c = false ∧ c ≠ ']' ∧ c ≠ '}' ∧ c ≠ ',' := by
  cases j with
  | jnull => exact ⟨'n', _, rfl, by decide, by decide, by decide, by decide⟩
  | jbool b =>
    cases b with
    | true => exact ⟨'t', _, rfl, by decide, by decide, by decide, by decide⟩
    | false => exact ⟨'f', _, rfl, by decide, by decide, by decide, by decide⟩
  | jnum n =>
    obtain ⟨c, t, hct, hws, _, _, _, _, _, _, hrb, hrcb, hcm⟩ := intToChars_head n
    exact ⟨c, t, hct, hws, hrb, hrcb, hcm⟩
  | jstr s => exact ⟨'"', _, rfl, by decide, by decide, by decide, by decide⟩
  | jarr es => exact ⟨'[', _, rfl, by decide, by decide, by decide, by decide⟩
  | jobj fs => exact ⟨'{', _, rfl, by decide, by decide, by decide, by decide⟩

/-- The printed form of a nonempty element list starts like its first
element. -/
theorem elemsToChars_cons (e : Json) (es : List Json) :
    ∃ X, elemsToChars (e :: es) = jsonToChars e ++ X := by
  cases es with
  | nil => exact ⟨[], by simp [elemsToChars]⟩
  | cons e2 es2 => exact ⟨',' :: elemsToChars (e2 :: es2), by simp [elemsToChars]⟩

/-- The printed form of a nonempty member list starts with a quote. -/
theorem membersToChars_cons (k : String) (v : Json) (fs : List (String × Json)) :
    ∃ X, membersToChars ((k, v) :: fs) = '"' :: X := by
  cases fs with
  | nil => exact ⟨escList k.toList ++ '"' :: ':' :: jsonToChars v, by simp [membersToChars]⟩
  | cons kv2 fs2 =>
    exact ⟨escList k.toList ++ '"' :: ':' ::
      (jsonToChars v ++ ',' :: membersToChars (kv2 :: fs2)), by simp [membersToChars]⟩

mutual

/-- Parsing the printed form of a value, followed by a delimiter,
recovers the value. -/
theorem parseVal_print :
    ∀ (j : Json) (f : Nat) (rest : List Char), jsonFuel j ≤ f → delimHead rest = true →
      parseVal f (jsonToChars j ++ rest) = some (j, rest)
  | .jnull, f, rest, hf, _ => by
    obtain ⟨f', rfl⟩ : ∃ f', f = f' + 1 := ⟨f - 1, by simp [jsonFuel] at hf; omega⟩
    show parseVal (f' + 1) (['n', 'u', 'l', 'l'] ++ rest) = some (.jnull, rest)
    simp only [List.cons_append, List.nil_append, parseVal]
    rw [skipWs_cons (by decide)]
    simp
  | .jbool true, f, rest, hf, _ => by
    obtain ⟨f', rfl⟩ : ∃ f', f = f' + 1 := ⟨f - 1, by simp [jsonFuel] at hf; omega⟩
    show parseVal (f' + 1) (['t', 'r', 'u', 'e'] ++ rest) = some (.jbool true, rest)
    simp only [List.cons_append, List.nil_append, parseVal]
    rw [skipWs_cons (by decide)]
    simp
  | .jbool false, f, rest, hf, _ => by
    obtain ⟨f', rfl⟩ : ∃ f', f = f' + 1 := ⟨f - 1, by simp [jsonFuel] at hf; omega⟩
    show parseVal (f' + 1) (['f', 'a', 'l', 's', 'e'] ++ rest) = some (.jbool false, rest)
    simp only [List.cons_append, List.nil_append, parseVal]
    rw [skipWs_cons (by decide)]
    simp
  | .jnum n, f, rest, hf, hd => by
    obtain ⟨f', rfl⟩ : ∃ f', f = f' + 1 := ⟨f - 1, by simp [jsonFuel] at hf; omega⟩
    obtain ⟨c, t, hct, hws, hq, hnc, htc, hfc, hlb, hlcb, _, _, _⟩ := intToChars_head n
    show parseVal (f' + 1) (intToChars n ++ rest) = some (.jnum n, rest)
    rw [hct]
    simp only [List.cons_append, parseVal]
    rw [skipWs_cons hws]
    simp [hq, hnc, htc, hfc, hlb, hlcb]
    rw [← List.cons_append, ← hct, parseNumber_print n rest hd]
  | .jstr s, f, rest, hf, _ => by
    obtain ⟨f', rfl⟩ : ∃ f', f = f' + 1 := ⟨f - 1, by simp [jsonFuel] at hf; omega⟩
    show parseVal (f' + 1) (('"' :: (escList s.toList ++ ['"'])) ++ rest) = some (.jstr s, rest)
    simp only [List.cons_append, List.append_assoc, List.singleton_append, parseVal]
    rw [skipWs_cons (by decide)]
    simp [parseStringBody_escape, mapStr, stringMk_toList]
  | .jarr [], f, rest, hf, _ => by
    obtain ⟨f', rfl⟩ : ∃ f', f = f' + 1 := ⟨f - 1, by simp [jsonFuel] at hf; omega⟩
    show parseVal (f' + 1) (('[' :: (elemsToChars [] ++ [']'])) ++ rest) = some (.jarr [], rest)
    simp only [elemsToChars, List.cons_append, List.nil_append, List.singleton_append, parseVal]
    rw [skipWs_cons (by decide)]
    simp [skipWs_cons (show isJsonWs ']' = false from by decide)]
  | .jarr (e :: es), f, rest, hf, _ => by
    have hfuel : 1 + elemsFuel (e :: es) ≤ f := by simpa [jsonFuel] using hf
    obtain ⟨f', rfl⟩ : ∃ f', f = f' + 1 := ⟨f - 1, by omega⟩
    obtain ⟨c, t0, hche, hws, hbr, _, _⟩ := jsonToChars_head e
    obtain ⟨X, hX⟩ := elemsToChars_cons e es
    have hct2 : elemsToChars (e :: es) = c :: (t0 ++ X) := by
      rw [hX, hche, List.cons_append]
    have ih := parseElems_print (e :: es) f' rest (by simp) (by omega)
    rw [hct2, List.cons_append, List.append_assoc] at ih
    show parseVal (f' + 1) (('[' :: (elemsToChars (e :: es) ++ [']'])) ++ rest)
      = some (.jarr (e :: es), rest)
    rw [show ('[' :: (elemsToChars (e :: es) ++ [']'])) ++ rest
        = '[' :: (elemsToChars (e :: es) ++ ']' :: rest) from by
      simp [List.append_assoc]]
    simp only [parseVal]
    rw [skipWs_cons (by decide), hct2]
    simp [skipWs_cons hws, hbr, List.cons_append, ih, mapArr]
  | .jobj [], f, rest, hf, _ => by
    obtain ⟨f', rfl⟩ : ∃ f', f = f' + 1 := ⟨f - 1, by simp [jsonFuel] at hf; omega⟩
    show parseVal (f' + 1) (('{' :: (membersToChars [] ++ ['}'])) ++ rest) = some (.jobj [], rest)
    simp only [membersToChars, List.cons_append, List.nil_append, List.singleton_append, parseVal]
    rw [skipWs_cons (by decide)]
    simp [skipWs_cons (show isJsonWs '}' = false from by decide)]
  | .jobj ((k, v) :: fs), f, rest, hf, _ => by
    have hfuel : 1 + membersFuel ((k, v) :: fs) ≤ f := by simpa [jsonFuel] using hf
    obtain ⟨f', rfl⟩ : ∃ f', f = f' + 1 := ⟨f - 1, by omega⟩
    obtain ⟨X, hX⟩ := membersToChars_cons k v fs
    have ih := parseMembers_print ((k, v) :: fs) f' rest (by simp) (by omega)
    rw [hX, List.cons_append] at ih
    show parseVal (f' + 1) (('{' :: (membersToChars ((k, v) :: fs) ++ ['}'])) ++ rest)
      = some (.jobj ((k, v) :: fs), rest)
    rw [show ('{' :: (membersToChars ((k, v) :: fs) ++ ['}'])) ++ rest
        = '{' :: (membersToChars ((k, v) :: fs) ++ '}' :: rest) from by
      simp [List.append_assoc]]
    simp only [parseVal]
    rw [skipWs_cons (by decide), hX]
    simp [skipWs_cons (show isJsonWs '"' = false from by decide), List.cons_append, ih, mapObj]

/-- Parsing the printed form of a nonempty element list followed by the
closing bracket recovers the elements. -/
theorem parseElems_print :
    ∀ (es : List Json) (f : Nat) (rest : List Char), es ≠ [] → elemsFuel es ≤ f →
      parseElems f (elemsToChars es ++ ']' :: rest) = some (es, rest)
  | [], _, _, hne, _ => absurd rfl hne
  | [j], f, rest, _, hf => by
    have hfuel : 1 + jsonFuel j + 1 ≤ f := by simpa [elemsFuel] using hf
    obtain ⟨f', rfl⟩ : ∃ f', f = f' + 1 := ⟨f - 1, by omega⟩
    have hv := parseVal_print j f' (']' :: rest) (by omega) (by simp [delimHead])
    show parseElems (f' + 1) (elemsToChars [j] ++ ']' :: rest) = some ([j], rest)
    rw [show elemsToChars [j] = jsonToChars j from rfl]
    simp only [parseElems]
    rw [hv]
    simp [skipWs_cons (show isJsonWs ']' = false from by decide)]
  | j :: e :: es, f, rest, _, hf => by
    have hfuel : 1 + jsonFuel j + elemsFuel (e :: es) ≤ f := by simpa [elemsFuel] using hf
    obtain ⟨f', rfl⟩ : ∃ f', f = f' + 1 := ⟨f - 1, by omega⟩
    have hel := elemsFuel_pos (e :: es)
    have hv := parseVal_print j f' (',' :: (elemsToChars (e :: es) ++ ']' :: rest))
      (by omega) (by simp [delimHead])
    have ih := parseElems_print (e :: es) f' rest (by simp) (by omega)
    show parseElems (f' + 1) (elemsToChars (j :: e :: es) ++ ']' :: rest)
      = some (j :: e :: es, rest)
    rw [show elemsToChars (j :: e :: es) ++ ']' :: rest
        = jsonToChars j ++ (',' :: (elemsToChars (e :: es) ++ ']' :: rest)) from by
      simp [elemsToChars, List.append_assoc]]
    simp only [parseElems]
    rw [hv]
    simp [skipWs_cons (show isJsonWs ',' = false from by decide), ih, consElem]

/-- Parsing the printed form of a nonempty member list followed by the
closing brace recovers the members. -/
theorem parseMembers_print :
    ∀ (fs : List (String × Json)) (f : Nat) (rest : List Char), fs ≠ [] → membersFuel fs ≤ f →
      parseMembers f (membersToChars fs ++ '}' :: rest) = some (fs, rest)
  | [], _, _, hne, _ => absurd rfl hne
  | [(k, v)], f, rest, _, hf => by
    have hfuel : 1 + jsonFuel v + 1 ≤ f := by simpa [membersFuel] using hf
    obtain ⟨f', rfl⟩ : ∃ f', f = f' + 1 := ⟨f - 1, by omega⟩
    have hv := parseVal_print v f' ('}' :: rest) (by omega) (by simp [delimHead])
    show parseMembers (f' + 1) (membersToChars [(k, v)] ++ '}' :: rest) = some ([(k, v)], rest)
    rw [show membersToChars [(k, v)] ++ '}' :: rest
        = '"' :: (escList k.toList ++ '"' :: (':' :: (jsonToChars v ++ '}' :: rest))) from by
      simp [membersToChars, List.append_assoc]]
    simp only [parseMembers]
    rw [skipWs_cons (by decide)]
    simp only [reduceIte]
    rw [parseStringBody_escape]
    simp [skipWs_cons (show isJsonWs ':' = false from by decide), hv,
      skipWs_cons (show isJsonWs '}' = false from by decide), stringMk_toList]
  | (k, v) :: m2 :: fs, f, rest, _, hf => by
    have hfuel : 1 + jsonFuel v + membersFuel (m2 :: fs) ≤ f := by simpa [membersFuel] using hf
    obtain ⟨f', rfl⟩ : ∃ f', f = f' + 1 := ⟨f - 1, by omega⟩
    have hmf := membersFuel_pos (m2 :: fs)
    have hv := parseVal_print v f' (',' :: (membersToChars (m2 :: fs) ++ '}' :: rest))
      (by omega) (by simp [delimHead])
    have ih := parseMembers_print (m2 :: fs) f' rest (by simp) (by omega)
    show parseMembers (f' + 1) (membersToChars ((k, v) :: m2 :: fs) ++ '}' :: rest)
      = some ((k, v) :: m2 :: fs, rest)
    rw [show membersToChars ((k, v) :: m2 :: fs) ++ '}' :: rest
        = '"' :: (escList k.toList ++ '"' :: (':' :: (jsonToChars v
            ++ ',' :: (membersToChars (m2 :: fs) ++ '}' :: rest)))) from by
      simp [membersToChars, List.append_assoc]]
    simp only [parseMembers]
    rw [skipWs_cons (by decide)]
    simp only [reduceIte]
    rw [parseStringBody_escape]
    simp [skipWs_cons (show isJsonWs ':' = false from by decide), hv,
      skipWs_cons (show isJsonWs ',' = false from by decide), ih, consMember, stringMk_toList]

end

mutual

/-- The top-level fuel `2 * length` dominates the fuel needed for a
printed value. -/
theorem jsonFuel_lt : ∀ j : Json, jsonFuel j < 2 * (jsonToChars j).length
  | .jnull => by simp [jsonFuel, jsonToChars]
  | .jbool true => by simp [jsonFuel, jsonToChars]
  | .jbool false => by simp [jsonFuel, jsonToChars]
  | .jnum n => by
    obtain ⟨c, t, hct, _⟩ := intToChars_head n
    simp only [jsonFuel, jsonToChars, hct, List.length_cons]
    omega
  | .jstr s => by
    simp only [jsonFuel, jsonToChars, List.length_cons, List.length_append]
    omega
  | .jarr es => by
    have h := elemsFuel_le es
    simp only [jsonFuel, jsonToChars, List.length_cons, List.length_append,
      List.length_singleton]
    omega
  | .jobj fs => by
    have h := membersFuel_le fs
    simp only [jsonFuel, jsonToChars, List.length_cons, List.length_append,
      List.length_singleton]
    omega

/-- Fuel bound for printed element lists. -/
theorem elemsFuel_le : ∀ es : List Json, elemsFuel es ≤ 2 * (elemsToChars es).length + 1
  | [] => by simp [elemsFuel, elemsToChars]
  | [j] => by
    have h := jsonFuel_lt j
    simp only [elemsFuel, elemsToChars]
    omega
  | j :: e :: es => by
    have h1 := jsonFuel_lt j
    have h2 := elemsFuel_le (e :: es)
    simp only [elemsFuel] at h2
    simp only [elemsFuel, elemsToChars, List.length_append, List.length_cons]
    omega

/-- Fuel bound for printed member lists. -/
theorem membersFuel_le :
    ∀ fs : List (String × Json), membersFuel fs ≤ 2 * (membersToChars fs).length + 1
  | [] => by simp [membersFuel, membersToChars]
  | [(k, v)] => by
    have h := jsonFuel_lt v
    simp only [membersFuel, membersToChars, List.length_cons, List.length_append]
    omega
  | (k, v) :: m2 :: fs => by
    have h1 := jsonFuel_lt v
    have h2 := membersFuel_le (m2 :: fs)
    simp only [membersFuel] at h2
    simp only [membersFuel, membersToChars, List.length_cons, List.length_append]
    omega

end

/-- `JSON.parse` inverts `JSON.stringify` on character lists. -/
theorem jsonParseChars_print (j : Json) : jsonParseChars (jsonToChars j) = some j := by
  unfold jsonParseChars
  have h1 := jsonFuel_lt j
  have h2 := parseVal_print j (2 * (jsonToChars j).length + 2) [] (by omega) (by decide)
  rw [List.append_nil] at h2
  rw [h2]
  simp [skipWs]

/-- `JSON.parse` inverts `JSON.stringify`. -/
theorem jsonParse_print (j : Json) : jsonParse (jsonToString j) = some j := by
  unfold jsonParse jsonToString
  rw [show (String.mk (jsonToChars j)).toList = jsonToChars j from rfl]
  exact jsonParseChars_print j

/-! ## Latin-1 side conditions for `btoa` -/

/-- All characters of a string fit in one byte (`btoa`'s domain). -/
def strLatin1 (s : String) : Bool := s.toList.all (fun c => c.toNat < 256)

/-- All string fields of a user fit in `btoa`'s domain. -/
def userLatin1 (u : User) : Bool :=
  strLatin1 u.id && strLatin1 u.email && strLatin1 u.name && strLatin1 u.memberSince

mutual

/-- All strings inside a JSON value fit in `btoa`'s domain. -/
def jsonLatin1 : Json → Bool
  | .jnull => true
  | .jbool _ => true
  | .jnum _ => true
  | .jstr s => strLatin1 s
  | .jarr es => elemsLatin1 es
  | .jobj fs => membersLatin1 fs

/-- Latin-1 condition for element lists. -/
def elemsLatin1 : List Json → Bool
  | [] => true
  | j :: es => jsonLatin1 j && elemsLatin1 es

/-- Latin-1 condition for member lists. -/
def membersLatin1 : List (String × Json) → Bool
  | [] => true
  | (k, v) :: fs => strLatin1 k && jsonLatin1 v && membersLatin1 fs

end

/-- Hex digit characters are ASCII. -/
theorem hexDigitChar_lt : ∀ d, d < 16 → (hexDigitChar d).toNat < 256 := by decide

/-- Escaping a one-byte character yields one-byte characters. -/
theorem escapeChar_latin1 (c : Char) (h : c.toNat < 256) :
    ∀ d ∈ escapeChar c, d.toNat < 256 := by
  intro d hd
  unfold escapeChar at hd
  split_ifs at hd with h1 h2 h3 h4 h5 h6 h7 h8
  · simp only [List.mem_cons, List.not_mem_nil, or_false] at hd
    rcases hd with hd | hd <;> subst hd <;> decide
  · simp only [List.mem_cons, List.not_mem_nil, or_false] at hd
    rcases hd with hd | hd <;> subst hd <;> decide
  · simp only [List.mem_cons, List.not_mem_nil, or_false] at hd
    rcases hd with hd | hd <;> subst hd <;> decide
  · simp only [List.mem_cons, List.not_mem_nil, or_false] at hd
    rcases hd with hd | hd <;> subst hd <;> decide
  · simp only [List.mem_cons, List.not_mem_nil, or_false] at hd
    rcases hd with hd | hd <;> subst hd <;> decide
  · simp only [List.mem_cons, List.not_mem_nil, or_false] at hd
    rcases hd with hd | hd <;> subst hd <;> decide
  · simp only [List.mem_cons, List.not_mem_nil, or_false] at hd
    rcases hd with hd | hd <;> subst hd <;> decide
  · simp only [List.mem_cons, List.not_mem_nil, or_false] at hd
    rcases hd with hd | hd | hd | hd | hd | hd <;> subst hd
    · decide
    · decide
    · decide
    · decide
    · exact hexDigitChar_lt _ (by omega)
    · exact hexDigitChar_lt _ (by omega)
  · simp only [List.mem_singleton] at hd
    subst hd
    exact h

/-- Escaping a one-byte string yields one-byte characters. -/
theorem escList_latin1 :
    ∀ (cs : List Char), (∀ c ∈ cs, c.toNat < 256) → ∀ d ∈ escList cs, d.toNat < 256
  | [], _, d, hd => absurd hd (by simp [escList])
  | c :: cs, h, d, hd => by
    rw [show escList (c :: cs) = escapeChar c ++ escList cs from rfl] at hd
    rcases List.mem_append.mp hd with hd | hd
    · exact escapeChar_latin1 c (h c (by simp)) d hd
    · exact escList_latin1 cs (fun x hx => h x (by simp [hx])) d hd

/-- Digit characters are ASCII. -/
theorem digit_latin1 {c : Char} (h : isDigitChar c = true) : c.toNat < 256 := by
  have := isDigitChar_toNat h
  omega

/-- The printed form of an integer is ASCII. -/
theorem intToChars_latin1 (n : Int) : ∀ c ∈ intToChars n, c.toNat < 256 := by
  intro c hc
  unfold intToChars at hc
  split_ifs at hc
  · rcases List.mem_cons.mp hc with hc | hc
    · subst hc; decide
    · exact digit_latin1 (natToChars_digits _ c hc)
  · exact digit_latin1 (natToChars_digits _ c hc)

mutual

/-- Printing a Latin-1 JSON value yields one-byte characters. -/
theorem jsonLatin1_chars :
    ∀ j : Json, jsonLatin1 j = true → ∀ c ∈ jsonToChars j, c.toNat < 256
  | .jnull, _, c, hc => by
    simp only [jsonToChars, List.mem_cons, List.not_mem_nil, or_false] at hc
    rcases hc with hc | hc | hc | hc <;> (subst hc; decide)
  | .jbool true, _, c, hc => by
    simp only [jsonToChars, List.mem_cons, List.not_mem_nil, or_false] at hc
    rcases hc with hc | hc | hc | hc <;> (subst hc; decide)
  | .jbool false, _, c, hc => by
    simp only [jsonToChars, List.mem_cons, List.not_mem_nil, or_false] at hc
    rcases hc with hc | hc | hc | hc | hc <;> (subst hc; decide)
  | .jnum n, _, c, hc => intToChars_latin1 n c (by simpa [jsonToChars] using hc)
  | .jstr s, h, c, hc => by
    have hs : ∀ c ∈ s.toList, c.toNat < 256 := by
      simpa [jsonLatin1, strLatin1, List.all_eq_true] using h
    simp only [jsonToChars, List.mem_cons, List.mem_append, List.mem_singleton,
      List.not_mem_nil, or_false] at hc
    rcases hc with hc | hc | hc
    · subst hc; decide
    · exact escList_latin1 s.toList hs c hc
    · subst hc; decide
  | .jarr es, h, c, hc => by
    simp only [jsonToChars, List.mem_cons, List.mem_append, List.mem_singleton,
      List.not_mem_nil, or_false] at hc
    rcases hc with hc | hc | hc
    · subst hc; decide
    · exact elemsLatin1_chars es (by simpa [jsonLatin1] using h) c hc
    · subst hc; decide
  | .jobj fs, h, c, hc => by
    simp only [jsonToChars, List.mem_cons, List.mem_append, List.mem_singleton,
      List.not_mem_nil, or_false] at hc
    rcases hc with hc | hc | hc
    · subst hc; decide
    · exact membersLatin1_chars fs (by simpa [jsonLatin1] using h) c hc
    · subst hc; decide

/-- Printing a Latin-1 element list yields one-byte characters. -/
theorem elemsLatin1_chars :
    ∀ es : List Json, elemsLatin1 es = true → ∀ c ∈ elemsToChars es, c.toNat < 256
  | [], _, c, hc => absurd hc (by simp [elemsToChars])
  | [j], h, c, hc => by
    have hj : jsonLatin1 j = true := by simpa [elemsLatin1] using h
    exact jsonLatin1_chars j hj c (by simpa [elemsToChars] using hc)
  | j :: e :: es, h, c, hc => by
    have hj : jsonLatin1 j = true ∧ elemsLatin1 (e :: es) = true := by
      simpa [elemsLatin1, Bool.and_eq_true, and_assoc] using h
    simp only [elemsToChars, List.mem_append, List.mem_cons] at hc
    rcases hc with hc | hc | hc
    · exact jsonLatin1_chars j hj.1 c hc
    · subst hc; decide
    · exact elemsLatin1_chars (e :: es) hj.2 c (by simpa [elemsToChars] using hc)

/-- Printing a Latin-1 member list yields one-byte characters. -/
theorem membersLatin1_chars :
    ∀ fs : List (String × Json), membersLatin1 fs = true →
      ∀ c ∈ membersToChars fs, c.toNat < 256
  | [], _, c, hc => absurd hc (by simp [membersToChars])
  | [(k, v)], h, c, hc => by
    have hk : strLatin1 k = true ∧ jsonLatin1 v = true := by
      simpa [membersLatin1, Bool.and_eq_true] using h
    have hks : ∀ x ∈ k.toList, x.toNat < 256 := by
      simpa [strLatin1, List.all_eq_true] using hk.1
    simp only [membersToChars, List.mem_cons, List.mem_append, List.not_mem_nil,
      or_false] at hc
    rcases hc with hc | hc | hc | hc | hc
    · subst hc; decide
    · exact escList_latin1 k.toList hks c hc
    · subst hc; decide
    · subst hc; decide
    · exact jsonLatin1_chars v hk.2 c hc
  | (k, v) :: m2 :: fs, h, c, hc => by
    have hk : strLatin1 k = true ∧ jsonLatin1 v = true ∧ membersLatin1 (m2 :: fs) = true := by
      simpa [membersLatin1, Bool.and_eq_true, and_assoc] using h
    have hks : ∀ x ∈ k.toList, x.toNat < 256 := by
      simpa [strLatin1, List.all_eq_true] using hk.1
    simp only [membersToChars, List.mem_cons, List.mem_append, List.not_mem_nil,
      or_false] at hc
    rcases hc with hc | hc | hc | hc | hc | hc | hc
    · subst hc; decide
    · exact escList_latin1 k.toList hks c hc
    · subst hc; decide
    · subst hc; decide
    · exact jsonLatin1_chars v hk.2.1 c hc
    · subst hc; decide
    · exact membersLatin1_chars (m2 :: fs) hk.2.2 c hc

end

/-! ## Token round trip -/

/-- The JSON image of a Latin-1 user is Latin-1. -/
theorem userToJson_latin1 (u : User) (h : userLatin1 u = true) :
    jsonLatin1 (userToJson u) = true := by
  obtain ⟨h1, h2, h3, h4⟩ : strLatin1 u.id = true ∧ strLatin1 u.email = true ∧
      strLatin1 u.name = true ∧ strLatin1 u.memberSince = true := by
    simpa [userLatin1, Bool.and_eq_true, and_assoc] using h
  have hm : strLatin1 u.membershipType.toStr = true := by
    cases u.membershipType <;> decide
  have l1 : strLatin1 "id" = true := by decide
  have l2 : strLatin1 "email" = true := by decide
  have l3 : strLatin1 "name" = true := by decide
  have l4 : strLatin1 "membershipType" = true := by decide
  have l5 : strLatin1 "memberSince" = true := by decide
  simp [userToJson, jsonLatin1, membersLatin1, h1, h2, h3, h4, hm, l1, l2, l3, l4, l5]

/-- The token payload of a Latin-1 user is Latin-1. -/
theorem payloadJson_latin1 (u : User) (now : Int) (h : userLatin1 u = true) :
    jsonLatin1 (payloadJson u now) = true := by
  have hu := userToJson_latin1 u h
  have l6 : strLatin1 "user" = true := by decide
  have l7 : strLatin1 "exp" = true := by decide
  have l8 : jsonLatin1 (Json.jnum (now + 3600000)) = true := rfl
  show membersLatin1 [("user", userToJson u), ("exp", Json.jnum (now + 3600000))] = true
  simp [membersLatin1, hu, l6, l7, l8]

/-- Core round trip: for a Latin-1 user the mock token is generated and
`verifyToken` recovers exactly the serialized user object. -/
theorem decode_token (u : User) (now : Int) (h : userLatin1 u = true) :
    ∃ tk, generateMockToken u now = some tk
      ∧ verifyToken tk = .ok (.val (userToJson u)) := by
  have hlat := payloadJson_latin1 u now h
  have hchars : ∀ c ∈ (jsonToString (payloadJson u now)).toList, c.toNat < 256 := by
    intro c hc
    exact jsonLatin1_chars _ hlat c (by simpa [jsonToString] using hc)
  have hb := btoa_eq_some (jsonToString (payloadJson u now)) hchars
  have ha := atob_btoa (jsonToString (payloadJson u now)) hchars
  have hh : btoa (jsonToString headerJson)
      = some (String.mk (encodeChunks ((jsonToString headerJson).toList.map Char.toNat))) :=
    btoa_eq_some (jsonToString headerJson) (by decide)
  refine ⟨String.mk (encodeChunks ((jsonToString headerJson).toList.map Char.toNat))
      ++ "." ++ String.mk (encodeChunks ((jsonToString (payloadJson u now)).toList.map Char.toNat))
      ++ "." ++ "mock-signature", ?_, ?_⟩
  · unfold generateMockToken
    rw [hh, hb]
  · have htl : (String.mk (encodeChunks ((jsonToString headerJson).toList.map Char.toNat))
        ++ "." ++ String.mk (encodeChunks ((jsonToString (payloadJson u now)).toList.map Char.toNat))
        ++ "." ++ "mock-signature").toList
        = encodeChunks ((jsonToString headerJson).toList.map Char.toNat)
          ++ '.' :: (encodeChunks ((jsonToString (payloadJson u now)).toList.map Char.toNat)
            ++ '.' :: "mock-signature".toList) := by
      rw [toList_append, toList_append, toList_append, toList_append]
      rw [show ("." : String).toList = ['.'] from rfl]
      simp [List.append_assoc]
    have hsplit : splitDot (String.mk (encodeChunks ((jsonToString headerJson).toList.map Char.toNat))
        ++ "." ++ String.mk (encodeChunks ((jsonToString (payloadJson u now)).toList.map Char.toNat))
        ++ "." ++ "mock-signature")
        = [String.mk (encodeChunks ((jsonToString headerJson).toList.map Char.toNat)),
           String.mk (encodeChunks ((jsonToString (payloadJson u now)).toList.map Char.toNat)),
           String.mk "mock-signature".toList] := by
      unfold splitDot
      rw [htl, splitDotChars_append _ _ (dot_not_mem_encodeChunks _),
        splitDotChars_append _ _ (dot_not_mem_encodeChunks _)]
      rfl
    have hlook : propUser (payloadJson u now) = some (.val (userToJson u)) := by
      simp [payloadJson, propUser, lookupField]
    have hdec : decodeUserField (String.mk (encodeChunks
          ((jsonToString headerJson).toList.map Char.toNat))
        ++ "." ++ String.mk (encodeChunks
          ((jsonToString (payloadJson u now)).toList.map Char.toNat))
        ++ "." ++ "mock-signature") = some (.val (userToJson u)) := by
      unfold decodeUserField
      rw [hsplit]
      rw [show ([String.mk (encodeChunks ((jsonToString headerJson).toList.map Char.toNat)),
          String.mk (encodeChunks ((jsonToString (payloadJson u now)).toList.map Char.toNat)),
          String.mk "mock-signature".toList].get? 1).getD "undefined"
        = String.mk (encodeChunks ((jsonToString (payloadJson u now)).toList.map Char.toNat))
        from rfl]
      rw [ha]
      simp [jsonParse_print, hlook]
    unfold verifyToken
    rw [hdec]

/-! ## Support lemmas for the claims -/

/-- Reading a user back from its JSON image recovers the user. -/
theorem jsonToUser_userToJson (u : User) : jsonToUser (userToJson u) = some u := by
  obtain ⟨i, e, nm, mt, ms⟩ := u
  cases mt <;> rfl

/-- Lookup misses an object without the key. -/
theorem lookupField_none :
    ∀ (fs : List (String × Json)), (∀ kv ∈ fs, kv.1 ≠ "user") → lookupField fs "user" = none
  | [], _ => rfl
  | (k, v) :: fs, h => by
    have ih := lookupField_none fs (fun kv hkv => h kv (by simp [hkv]))
    simp only [lookupField, ih]
    rw [if_neg (h (k, v) (by simp))]

/-- A token with fewer than two dot-separated segments always fails to
verify: indexing segment 1 yields `undefined`, and
`atob("undefined")` throws. -/
theorem verifyToken_short (token : String) (h : (splitDot token).length < 2) :
    verifyToken token = .error "Invalid token" := by
  unfold verifyToken decodeUserField
  rw [show (splitDot token).get? 1 = none from List.get?_eq_none.mpr (by omega)]
  rfl

/-- A decode failure makes `getCurrentUser` return `null`, whatever the
availability flag. -/
theorem getCurrentUser_decode_fail (token : String) (avail : Bool)
    (h : decodeUserField token = none) :
    getCurrentUser ⟨avail, some token⟩ = .jsNull := by
  cases avail with
  | false => rfl
  | true =>
    by_cases htok : token = ""
    · subst htok; rfl
    · simp [getCurrentUser, htok, h]

/-- Decoding a payload without a `user` field yields the JS value
`undefined` from the shared decode expression. -/
theorem decodeUserField_missing (token seg payloadStr : String) (fs : List (String × Json))
    (hseg : (splitDot token).get? 1 = some seg)
    (hatob : atob seg = some payloadStr)
    (hparse : jsonParse payloadStr = some (Json.jobj fs))
    (hnouser : ∀ kv ∈ fs, kv.1 ≠ "user") :
    decodeUserField token = some .undefined := by
  have hlook := lookupField_none fs hnouser
  unfold decodeUserField
  rw [hseg, Option.getD_some, hatob]
  simp [hparse, propUser, hlook]

/-- A token produced by `generateMockToken` is nonempty and its shared
decode expression recovers the serialized user object. -/
theorem decodeUserField_generated (u : User) (now : Int) (tk : String)
    (h : generateMockToken u now = some tk) :
    decodeUserField tk = some (.val (userToJson u)) ∧ tk ≠ "" := by
  unfold generateMockToken at h
  rw [btoa_eq_some (jsonToString headerJson) (by decide)] at h
  cases hbp : btoa (jsonToString (payloadJson u now)) with
  | none => rw [hbp] at h; exact absurd h (by simp)
  | some pB =>
    rw [hbp] at h
    have hchars : ∀ c ∈ (jsonToString (payloadJson u now)).toList, c.toNat < 256 := by
      unfold btoa at hbp
      by_cases hall : (jsonToString (payloadJson u now)).toList.all (fun c => c.toNat < 256) = true
      · intro c hc
        simpa using List.all_eq_true.mp hall c hc
      · rw [if_neg (by simpa using hall)] at hbp
        exact absurd hbp (by simp)
    have hpB : pB = String.mk (encodeChunks
        ((jsonToString (payloadJson u now)).toList.map Char.toNat)) := by
      unfold btoa at hbp
      rw [if_pos (List.all_eq_true.mpr (fun c hc => by simpa using hchars c hc))] at hbp
      exact (Option.some.injEq _ _).mp hbp.symm
    have htk : tk = String.mk (encodeChunks ((jsonToString headerJson).toList.map Char.toNat))
        ++ "." ++ pB ++ "." ++ "mock-signature" :=
      ((Option.some.injEq _ _).mp h).symm
    subst htk hpB
    have ha := atob_btoa (jsonToString (payloadJson u now)) hchars
    have htl : (String.mk (encodeChunks ((jsonToString headerJson).toList.map Char.toNat))
        ++ "." ++ String.mk (encodeChunks ((jsonToString (payloadJson u now)).toList.map Char.toNat))
        ++ "." ++ "mock-signature").toList
        = encodeChunks ((jsonToString headerJson).toList.map Char.toNat)
          ++ '.' :: (encodeChunks ((jsonToString (payloadJson u now)).toList.map Char.toNat)
            ++ '.' :: "mock-signature".toList) := by
      rw [toList_append, toList_append, toList_append, toList_append]
      rw [show ("." : String).toList = ['.'] from rfl]
      simp [List.append_assoc]
    constructor
    · have hsplit : splitDot (String.mk (encodeChunks
            ((jsonToString headerJson).toList.map Char.toNat))
          ++ "." ++ String.mk (encodeChunks
            ((jsonToString (payloadJson u now)).toList.map Char.toNat))
          ++ "." ++ "mock-signature")
          = [String.mk (encodeChunks ((jsonToString headerJson).toList.map Char.toNat)),
             String.mk (encodeChunks ((jsonToString (payloadJson u now)).toList.map Char.toNat)),
             String.mk "mock-signature".toList] := by
        unfold splitDot
        rw [htl, splitDotChars_append _ _ (dot_not_mem_encodeChunks _),
          splitDotChars_append _ _ (dot_not_mem_encodeChunks _)]
        rfl
      have hlook : propUser (payloadJson u now) = some (.val (userToJson u)) := by
        simp [payloadJson, propUser, lookupField]
      unfold decodeUserField
      rw [hsplit]
      rw [show ([String.mk (encodeChunks ((jsonToString headerJson).toList.map Char.toNat)),
          String.mk (encodeChunks ((jsonToString (payloadJson u now)).toList.map Char.toNat)),
          String.mk "mock-signature".toList].get? 1).getD "undefined"
        = String.mk (encodeChunks ((jsonToString (payloadJson u now)).toList.map Char.toNat))
        from rfl]
      rw [ha]
      simp [jsonParse_print, hlook]
    · intro he
      have : (String.mk (encodeChunks ((jsonToString headerJson).toList.map Char.toNat))
          ++ "." ++ String.mk (encodeChunks
            ((jsonToString (payloadJson u now)).toList.map Char.toNat))
          ++ "." ++ "mock-signature").toList = ([] : List Char) := by
        rw [he]
        rfl
      rw [htl] at this
      exact absurd this (by simp)

/-! ## Claims -/

/-- A user whose email contains a character above U+00FF (outside
`btoa`'s domain). -/
def euroUser : User := ⟨"user-123", "€@b.com", "Jane Doe", .premium, "2024-01-15"⟩

/-- C1 counterexample: for a well-formed user whose email contains a
character above U+00FF, `generateMockToken` throws inside `btoa`
(modelled as `none`), so no token is produced and the round trip of the
claim fails at this input. -/
theorem claim_C1_counterexample :
    generateMockToken euroUser 0 = none
      ∧ ¬ ∃ tk, generateMockToken euroUser 0 = some tk
          ∧ verifyToken tk = .ok (.val (userToJson euroUser)) := by
  have h : generateMockToken euroUser 0 = none := by rfl
  refine ⟨h, ?_⟩
  rintro ⟨tk, htk, -⟩
  rw [h] at htk
  exact Option.noConfusion htk

/-- C1 (amended): for every user whose string fields are Latin-1,
`generateMockToken` succeeds and `verifyToken` of the produced token
recovers exactly the encoded user. -/
theorem claim_C1_roundtrip (u : User) (now : Int) (h : userLatin1 u = true) :
    ∃ tk, generateMockToken u now = some tk
      ∧ verifyToken tk = .ok (.val (userToJson u))
      ∧ jsonToUser (userToJson u) = some u := by
  obtain ⟨tk, h1, h2⟩ := decode_token u now h
  exact ⟨tk, h1, h2, jsonToUser_userToJson u⟩

/-- C1 witness: the round trip at a concrete Latin-1 user. -/
theorem claim_C1_witness :
    userLatin1 (mockUser "a@b.com") = true
      ∧ ∃ tk, generateMockToken (mockUser "a@b.com") 0 = some tk
          ∧ verifyToken tk = .ok (.val (userToJson (mockUser "a@b.com")))
          ∧ jsonToUser (userToJson (mockUser "a@b.com")) = some (mockUser "a@b.com") :=
  ⟨by decide, claim_C1_roundtrip (mockUser "a@b.com") 0 (by decide)⟩

/-- C2: for every email and ambient clock, `login` with the sentinel
password `error` fails with the `Invalid credentials` error and returns
no token/user pair. -/
theorem claim_C2_sentinel_login (email : String) (now : Int) :
    login email "error" now = .error "Invalid credentials" := rfl

/-- C3 counterexample: `pw` is not the sentinel, yet `login` with an
email containing a character above U+00FF fails (uncaught
`InvalidCharacterError` from `btoa`) instead of succeeding. -/
theorem claim_C3_counterexample :
    ("pw" : String) ≠ "error" ∧ login "€@b.com" "pw" 0 = .error "InvalidCharacterError" :=
  ⟨by decide, by rfl⟩

/-- C3 (amended): for every Latin-1 email and non-sentinel password,
`login` succeeds with the fixed placeholder user carrying the supplied
email, and decoding the returned token yields that same user. -/
theorem claim_C3_login (email password : String) (now : Int)
    (hp : password ≠ "error") (he : strLatin1 email = true) :
    ∃ tk, login email password now = .ok (tk, mockUser email)
      ∧ mockUser email = ⟨"user-123", email, "Jane Doe", .premium, "2024-01-15"⟩
      ∧ verifyToken tk = .ok (.val (userToJson (mockUser email)))
      ∧ jsonToUser (userToJson (mockUser email)) = some (mockUser email) := by
  have hu : userLatin1 (mockUser email) = true := by
    have l1 : strLatin1 "user-123" = true := by decide
    have l2 : strLatin1 "Jane Doe" = true := by decide
    have l3 : strLatin1 "2024-01-15" = true := by decide
    simp [userLatin1, mockUser, he, l1, l2, l3]
  obtain ⟨tk, h1, h2⟩ := decode_token (mockUser email) now hu
  refine ⟨tk, ?_, rfl, h2, jsonToUser_userToJson _⟩
  unfold login
  rw [if_neg hp, h1]

/-- C3 witness: the login round trip at concrete inputs. -/
theorem claim_C3_witness :
    ("pw" : String) ≠ "error" ∧ strLatin1 "a@b.com" = true
      ∧ ∃ tk, login "a@b.com" "pw" 0 = .ok (tk, mockUser "a@b.com")
          ∧ mockUser "a@b.com" = ⟨"user-123", "a@b.com", "Jane Doe", .premium, "2024-01-15"⟩
          ∧ verifyToken tk = .ok (.val (userToJson (mockUser "a@b.com")))
          ∧ jsonToUser (userToJson (mockUser "a@b.com")) = some (mockUser "a@b.com") :=
  ⟨by decide, by decide, claim_C3_login "a@b.com" "pw" 0 (by decide) (by decide)⟩

/-- A two-segment token whose second segment is valid base64 of a JSON
object with a `user` field. -/
def c4token : String := "x." ++ (btoa (jsonToString (Json.jobj [("user", Json.jnum 42)]))).getD ""

/-- C4 counterexample: a token with only two dot-separated segments
(fewer than three) on which `verifyToken` nevertheless succeeds — the
code never checks the segment count. -/
theorem claim_C4_counterexample :
    (splitDot c4token).length = 2 ∧ verifyToken c4token = .ok (.val (Json.jnum 42)) :=
  ⟨rfl, rfl⟩

/-- C4 (amended): a token with fewer than two dot-separated segments
always fails with the `Invalid token` error (segment 1 is `undefined`,
and `atob` rejects the coerced string `"undefined"`); the segment count
itself is never validated. -/
theorem claim_C4_short (token : String) (h : (splitDot token).length < 2) :
    verifyToken token = .error "Invalid token" :=
  verifyToken_short token h

/-- C4 witness: a one-segment token fails. -/
theorem claim_C4_witness :
    (splitDot "abc").length < 2 ∧ verifyToken "abc" = .error "Invalid token" :=
  ⟨by decide, claim_C4_short "abc" (by decide)⟩

/-- A two-segment token whose payload's `user` field is the boolean
`true`, not a user object. -/
def c5token : String := "x." ++ (btoa (jsonToString (Json.jobj [("user", Json.jbool true)]))).getD ""

/-- C5 counterexample: a syntactically valid token whose decoded `user`
field is the boolean `true`: `verifyToken` and `getCurrentUser` return
it as a "User" although it is not a well-formed user value. -/
theorem claim_C5_counterexample :
    verifyToken c5token = .ok (.val (.jbool true))
      ∧ jsonToUser (.jbool true) = none
      ∧ getCurrentUser ⟨true, some c5token⟩ = .user (.jbool true) :=
  ⟨rfl, rfl, rfl⟩

/-- C5 (amended): when the syntactic decode of the payload fails,
`verifyToken` always errors and `getCurrentUser` always returns `null`
— no partial value is ever produced; when it succeeds, the payload's
`user` field is returned verbatim and unvalidated. -/
theorem claim_C5_decode_totality (token : String) :
    (decodeUserField token = none →
      verifyToken token = .error "Invalid token"
        ∧ ∀ avail : Bool, getCurrentUser ⟨avail, some token⟩ = .jsNull)
      ∧ (∀ v, decodeUserField token = some v → verifyToken token = .ok v) := by
  constructor
  · intro hnone
    constructor
    · unfold verifyToken
      rw [hnone]
    · intro avail
      exact getCurrentUser_decode_fail token avail hnone
  · intro v hv
    unfold verifyToken
    rw [hv]

/-- C5 witness: the totality split at a concrete undecodable token. -/
theorem claim_C5_witness :
    verifyToken "zz" = .error "Invalid token" ∧ getCurrentUser ⟨true, some "zz"⟩ = .jsNull := by
  have h := (claim_C5_decode_totality "zz").1 (by rfl)
  exact ⟨h.1, h.2 true⟩

/-- C6: `getCurrentUser` returns `null` — and, being a total function of
the storage state, raises nothing — when storage is unavailable, when no
token is stored, or when the stored token fails to decode. -/
theorem claim_C6_lookup_null (st : StorageState)
    (h : st.available = false ∨ st.authToken = none
      ∨ ∃ t, st.authToken = some t ∧ decodeUserField t = none) :
    getCurrentUser st = .jsNull := by
  obtain ⟨avail, tok⟩ := st
  rcases h with h | h | ⟨t, h1, h2⟩
  · simp only at h
    subst h
    rfl
  · simp only at h
    subst h
    cases avail <;> rfl
  · simp only at h1
    subst h1
    exact getCurrentUser_decode_fail t avail h2

/-- C6 witness: the empty storage state yields `null`. -/
theorem claim_C6_witness : getCurrentUser ⟨true, none⟩ = .jsNull :=
  claim_C6_lookup_null ⟨true, none⟩ (Or.inr (Or.inl rfl))

/-- A stored token whose payload decodes to an object without a `user`
field, for the `isAuthenticated` discrepancy. -/
def c7badToken : String := "x." ++ (btoa (jsonToString (Json.jobj [("a", Json.jnum 1)]))).getD ""

/-- C7 counterexample: a storage state where `isAuthenticated` is true
although `getCurrentUser` yields `undefined`, not a present User — the
claimed equivalence with "yields a User" fails. -/
theorem claim_C7_counterexample :
    isAuthenticated ⟨true, some c7badToken⟩ = true
      ∧ getCurrentUser ⟨true, some c7badToken⟩ = .jsUndefined :=
  ⟨rfl, rfl⟩

/-- A stored token whose payload's `user` field is JSON `null`: the
decoded value is the JS value `null` itself, so the lookup reports the
same `null` as the failure path. -/
def c7nullToken : String :=
  "x." ++ (btoa (jsonToString (Json.jobj [("user", Json.jnull)]))).getD ""

/-- C7 (amended): `isAuthenticated` is true exactly when
`getCurrentUser` returns something other than `null` (`undefined` also
counts as authenticated); storing a generated token yields true; an
empty slot, a garbage string, and a payload whose `user` field is JSON
`null` (which `getCurrentUser` returns as `null` itself) all yield
false. -/
theorem claim_C7_auth_iff :
    (∀ st : StorageState, isAuthenticated st = true ↔ getCurrentUser st ≠ .jsNull)
      ∧ (∀ (u : User) (now : Int) (tk : String), generateMockToken u now = some tk →
          isAuthenticated ⟨true, some tk⟩ = true)
      ∧ isAuthenticated ⟨true, none⟩ = false
      ∧ isAuthenticated ⟨true, some "not-a-token"⟩ = false
      ∧ getCurrentUser ⟨true, some c7nullToken⟩ = .jsNull
      ∧ isAuthenticated ⟨true, some c7nullToken⟩ = false := by
  refine ⟨?_, ?_, rfl, rfl, rfl, rfl⟩
  · intro st
    cases hres : getCurrentUser st with
    | jsNull => simp [isAuthenticated, hres]
    | jsUndefined => simp [isAuthenticated, hres]
    | user j => simp [isAuthenticated, hres]
  · intro u now tk hg
    obtain ⟨hdec, hne⟩ := decodeUserField_generated u now tk hg
    simp [isAuthenticated, getCurrentUser, hne, hdec, userToJson]

/-- C7 witness: the generated-token conjunct at a concrete login. -/
theorem claim_C7_witness :
    generateMockToken (mockUser "a@b.com") 0
        = some ((generateMockToken (mockUser "a@b.com") 0).getD "")
      ∧ isAuthenticated ⟨true, some ((generateMockToken (mockUser "a@b.com") 0).getD "")⟩
        = true :=
  ⟨by rfl, claim_C7_auth_iff.2.1 (mockUser "a@b.com") 0
    ((generateMockToken (mockUser "a@b.com") 0).getD "") (by rfl)⟩

/-- C8: a stored token whose payload decodes to a JSON object without a
`user` field makes `verifyToken` succeed with `undefined`,
`getCurrentUser` return `undefined` (neither `null` nor a user) without
raising, and `isAuthenticated` report true although no user was
recovered. -/
theorem claim_C8_missing_user_field (token seg payloadStr : String)
    (fs : List (String × Json))
    (hseg : (splitDot token).get? 1 = some seg)
    (hatob : atob seg = some payloadStr)
    (hparse : jsonParse payloadStr = some (Json.jobj fs))
    (hnouser : ∀ kv ∈ fs, kv.1 ≠ "user") :
    verifyToken token = .ok .undefined
      ∧ getCurrentUser ⟨true, some token⟩ = .jsUndefined
      ∧ isAuthenticated ⟨true, some token⟩ = true := by
  have hdec := decodeUserField_missing token seg payloadStr fs hseg hatob hparse hnouser
  have htok : token ≠ "" := by
    intro he
    subst he
    have h0 : (splitDot "").get? 1 = none := rfl
    rw [h0] at hseg
    exact Option.noConfusion hseg
  refine ⟨?_, ?_, ?_⟩
  · unfold verifyToken
    rw [hdec]
  · simp [getCurrentUser, htok, hdec]
  · simp [isAuthenticated, getCurrentUser, htok, hdec]

/-- A concrete token for the C8 scenario. -/
def c8token : String := "x." ++ (btoa (jsonToString (Json.jobj [("a", Json.jnum 1)]))).getD ""

/-- C8 witness: the scenario at a concrete token. -/
theorem claim_C8_witness :
    verifyToken c8token = .ok .undefined
      ∧ getCurrentUser ⟨true, some c8token⟩ = .jsUndefined
      ∧ isAuthenticated ⟨true, some c8token⟩ = true :=
  claim_C8_missing_user_field c8token
    ((btoa (jsonToString (Json.jobj [("a", Json.jnum 1)]))).getD "")
    (jsonToString (Json.jobj [("a", Json.jnum 1)]))
    [("a", Json.jnum 1)] (by rfl) (by rfl) (by rfl) (by decide)

/-- C9: `logout` is a no-op: it leaves the storage state unchanged and
both read-backs observe the same results afterwards. -/
theorem claim_C9_logout_noop :
    ∀ st : StorageState, logout st = (st, ())
      ∧ getCurrentUser (logout st).1 = getCurrentUser st
      ∧ isAuthenticated (logout st).1 = isAuthenticated st :=
  fun _ => ⟨rfl, rfl, rfl⟩

/-- C10: for integer bounds `0 ≤ min ≤ max` and any draw `0 ≤ r < 1`,
the computed delay `⌊r * (max - min + 1)⌋ + min` lies in `[min, max]`;
`login` draws with bounds 500 and 2000 and `verifyToken` with bounds
100 and 500. -/
theorem claim_C10_delay_in_range (min max : Int) (r : ℚ)
    (h0 : 0 ≤ min) (h1 : min ≤ max) (h2 : 0 ≤ r) (h3 : r < 1) :
    (min ≤ randomDelay min max r ∧ randomDelay min max r ≤ max)
      ∧ loginDelay r = randomDelay 500 2000 r
      ∧ verifyDelay r = randomDelay 100 500 r := by
  have hK : (0 : ℚ) < (max : ℚ) - (min : ℚ) + 1 := by
    have hc : (min : ℚ) ≤ (max : ℚ) := by exact_mod_cast h1
    linarith
  have hlo : 0 ≤ ⌊r * ((max : ℚ) - (min : ℚ) + 1)⌋ :=
    Int.floor_nonneg.mpr (mul_nonneg h2 hK.le)
  have hup : ⌊r * ((max : ℚ) - (min : ℚ) + 1)⌋ < max - min + 1 := by
    apply Int.floor_lt.mpr
    have hmul : r * ((max : ℚ) - (min : ℚ) + 1) < (max : ℚ) - (min : ℚ) + 1 :=
      mul_lt_of_lt_one_left hK h3
    have hcast : ((max - min + 1 : Int) : ℚ) = (max : ℚ) - (min : ℚ) + 1 := by
      push_cast
      ring
    rw [hcast]
    exact hmul
  refine ⟨?_, rfl, rfl⟩
  unfold randomDelay
  omega

/-- C10 witness: the bounds at the concrete login draw. -/
theorem claim_C10_witness :
    ((500 : Int) ≤ randomDelay 500 2000 (1 / 2) ∧ randomDelay 500 2000 (1 / 2) ≤ 2000)
      ∧ loginDelay (1 / 2) = randomDelay 500 2000 (1 / 2)
      ∧ verifyDelay (1 / 2) = randomDelay 100 500 (1 / 2) :=
  claim_C10_delay_in_range 500 2000 (1 / 2) (by decide) (by decide)
    (by norm_num) (by norm_num)
